import Mathlib

/-!
Verification of the multi-run analysis engine of the
`automated-systematic-review` repository (`asreview/analysis/analysis.py`).

The `Analysis` class is embedded shallowly: loggers become `Run` records
holding the recorded series, the mutable `inc_found` cache becomes an
explicit field of the `Analysis` record threaded through each operation,
Python exceptions become `Except String`, and numpy floats become exact
rationals (reals where a square root is involved).  The statistics helpers
(`_find_inclusions`, `_get_labeled_order`, `_get_last_proba_order`,
`_get_limits`) live in `asreview/analysis/statistics.py`, which is not part
of the sources at hand; they are modelled from the specification, as marked
on each definition.
-/

/-- Core per-run recorded series used by the analysis computations:
the ordered label-query history, the size of the seed phase, the final
ranking order, the per-query training-index snapshots and the number of
recorded queries.  (The per-run `labels`/`final_labels` series are kept
separately in `Run`; the analysis reads them only from the first run.) -/
structure RunCore where
  label_order : List Nat
  n_initial : Nat
  proba_order : List Nat
  train_idx : Nat → Option (List Nat)
  n_queries : Nat

/-- A full run log: the core series plus the recorded ground-truth label
series (`get('labels')` / `get('final_labels')`, `none` when the series is
absent and the logger raises `KeyError`). -/
structure Run extends RunCore where
  run_labels : Option (List Nat)
  run_final_labels : Option (List Nat)

/-- Number of relevant items among a list of item indices: counts the
entries whose ground-truth label is 1 (`labels[idx] == 1`). -/
def countOnes (labels : List Nat) (idxs : List Nat) : Nat :=
  idxs.countP (fun idx => labels.getD idx 0 = 1)

/-- Modelled from the spec: `_find_inclusions` of
`asreview/analysis/statistics.py` (not in the given sources).  Per the
Inclusion Tracker contract, it returns the cumulative inclusion curve
(`inclusions[i]` = relevant items among the first `i+1` entries of the
run's label order), `inc_after_init` (= `inclusions[last] -
inclusions[n_initial-1]`, the subtrahend taken as 0 when `n_initial = 0`)
and `n_initial`. -/
def findInclusions (r : RunCore) (labels : List Nat) :
    List Nat × Nat × Nat :=
  let inclusions := (List.range r.label_order.length).map
    (fun i => countOnes labels (r.label_order.take (i + 1)))
  let last := inclusions.getLastD 0
  let beforeInit := if r.n_initial = 0 then 0
    else inclusions.getD (r.n_initial - 1) 0
  (inclusions, last - beforeInit, r.n_initial)

/-- Arithmetic mean of a list of naturals, as a rational (`np.mean`). -/
def meanN (vals : List Nat) : ℚ :=
  ((vals.map (fun v : Nat => (v : ℚ))).sum) / vals.length

/-- The data `_get_inc_found` computes and `inclusions_found` caches per
`final_labels` flag: the per-step averaged curve, the per-step lists of
contributing values (from which the error estimates are derived), and the
`inc_after_init` / `n_initial` pair of the last run processed. -/
structure IncEntry where
  avg : List ℚ
  curVals : List (List Nat)
  inc_after_init : Nat
  n_initial : Nat
deriving DecidableEq

/-- Embeds `Analysis._get_inc_found`: per-run inclusion curves via
`_find_inclusions`, then for step `i = 0, 1, ...` the values of the runs
that still have an entry at `i` are collected (the loop stops at the first
step where no run contributes, i.e. at the maximal curve length); the mean
is recorded per step, and `inc_after_init`/`n_initial` are taken from the
last run of the loop. -/
def getIncFound (runs : List RunCore) (labels : List Nat) : IncEntry :=
  let incs := runs.map (fun r => findInclusions r labels)
  let inclLists := incs.map (fun p => p.1)
  let maxLen := (inclLists.map List.length).foldr max 0
  let curVals := (List.range maxLen).map
    (fun i => inclLists.filterMap (fun l => l.get? i))
  { avg := curVals.map meanN
    curVals := curVals
    inc_after_init := (incs.map (fun p => p.2.1)).getLastD 0
    n_initial := (incs.map (fun p => p.2.2)).getLastD 0 }

/-- The analysis object.  `runs` holds the core series of every logger (in
insertion order, the first being `self._first_file`); `labels` and
`final_labels` are the series read from the first logger at construction;
`inc_found` is the normalization cache, `none` when the attribute was never
initialized (empty analysis). -/
structure Analysis where
  runs : List RunCore
  labels : Option (List Nat)
  final_labels : Option (List Nat)
  inc_found : Option (Bool → Option IncEntry)

/-- Embeds `Analysis.__init__` on a list of loggers: with zero runs the
object stays empty (`labels`/`final_labels` `None`, no `inc_found`
attribute); otherwise `labels` and `final_labels` come from the first
logger and the cache starts empty. -/
def mkAnalysis (runs : List Run) : Analysis :=
  match runs with
  | [] => ⟨[], none, none, none⟩
  | r :: _ =>
    ⟨runs.map Run.toRunCore, r.run_labels, r.run_final_labels,
      some (fun _ => none)⟩

/-- Embeds `Analysis.inclusions_found` up to the error bar: selects the
label series by the `final_labels` flag, fails like the Python
`AttributeError` when the cache attribute was never created (empty
analysis) or like the `TypeError` on a `None` label series, looks up or
fills the cache, computes `x_norm`/`y_norm` by the result format and
returns the normalized `x` and `y` together with the cache entry, the
final `y_norm` (used to scale the error bar) and the updated analysis. -/
def inclusions_found_aux (a : Analysis) (result_format : String)
    (final_labels : Bool) :
    Except String ((List ℚ × List ℚ × IncEntry × ℚ) × Analysis) :=
  match a.inc_found with
  | none => .error "AttributeError: inc_found"
  | some cache =>
    match (if final_labels then a.final_labels else a.labels) with
    | none => .error "TypeError: labels is None"
    | some labels =>
      let entry := match cache final_labels with
        | some e => e
        | none => getIncFound a.runs labels
      let cache' := fun b => if b = final_labels then some entry else cache b
      let x_norm0 : ℚ := (labels.length : ℚ) - entry.n_initial
      let y_norm0 : ℚ := entry.inc_after_init
      let x_norm : ℚ :=
        if result_format = "percentage" then x_norm0 / 100
        else if result_format = "number" then x_norm0 / labels.length
        else x_norm0
      let y_norm : ℚ :=
        if result_format = "percentage" then y_norm0 / 100
        else if result_format = "number" then
          y_norm0 / entry.inc_after_init
        else y_norm0
      let norm_xr := (List.range entry.avg.length).map
        (fun i : Nat => (i : ℚ) / x_norm)
      let norm_yr := entry.avg.map (fun v => v / y_norm)
      .ok ((norm_xr, norm_yr, entry, y_norm),
        { a with inc_found := some cache' })

/-- Sample variance with one delta degree of freedom,
`sum((x - mean)^2) / (n - 1)`, as used inside `scipy.stats.sem`. -/
def sampleVarQ (vals : List Nat) : ℚ :=
  ((vals.map (fun v : Nat => ((v : ℚ) - meanN vals) ^ 2)).sum) /
    ((vals.length : ℚ) - 1)

/-- `scipy.stats.sem` with its default `ddof=1`:
the square root of (sample variance / n). -/
noncomputable def semR (vals : List Nat) : ℝ :=
  Real.sqrt ((sampleVarQ vals : ℝ) / (vals.length : ℝ))

/-- Per-step error of `_get_inc_found` before the single-run override: the
raw value itself when exactly one run contributes, `stats.sem` of the
contributing values otherwise. -/
noncomputable def stepErr (vals : List Nat) : ℝ :=
  if vals.length = 1 then ((vals.headD 0 : Nat) : ℝ) else semR vals

/-- The error sequence returned by `_get_inc_found`: per-step `stepErr`,
replaced by all zeros when the collection holds exactly one run. -/
noncomputable def getIncFoundErr (numRuns : Nat) (e : IncEntry) :
    List ℝ :=
  if numRuns = 1 then List.replicate e.curVals.length 0
  else e.curVals.map stepErr

/-- Division as numpy performs it on the error bar: a zero denominator
produces no finite value (`0/0` is NaN, `v/0` is an infinity), modelled
as `none`; otherwise the exact quotient. -/
noncomputable def divFloat (v d : ℝ) : Option ℝ :=
  if d = 0 then none else some (v / d)

/-- Embeds `Analysis.inclusions_found` in full: the `x`/`y` curves of
`inclusions_found_aux` together with the error bar `err / y_norm`, the
division carried out with numpy semantics (`divFloat`), so a zero
`y_norm` yields non-finite entries rather than zeros. -/
noncomputable def inclusions_found (a : Analysis) (result_format : String)
    (final_labels : Bool) :
    Except String ((List ℚ × List ℚ × List (Option ℝ)) × Analysis) :=
  (inclusions_found_aux a result_format final_labels).map
    (fun r => ((r.1.1, r.1.2.1,
      (getIncFoundErr a.runs.length r.1.2.2.1).map
        (fun v => divFloat v ((r.1.2.2.2 : ℚ) : ℝ))), r.2))

/-- First index of a list whose value satisfies `p`, embedding the Python
pattern `for i in range(len(l)): if p(l[i]): return i`. -/
def findFirstIdx (p : ℚ → Bool) : List ℚ → Option Nat
  | [] => none
  | v :: rest =>
    if p v then some 0 else (findFirstIdx p rest).map (fun i => i + 1)

/-- Embeds `Analysis.wss`: searches the `"percentage"`-normalized curve for
the first step with `norm_yr[i] >= val - 1e-6`; on a hit returns
`norm_yr[i] - norm_xr[i]` and the bar coordinates (in `"number"` display
units when requested, with `y_coef` computed from the `False`-keyed cache
entry — a `KeyError` when that entry is missing); otherwise the
`(None, None, None)` tuple, modelled as `none`. -/
def wss (a : Analysis) (val : ℚ) (x_format : String)
    (final_labels : Bool) :
    Except String (Option (ℚ × (ℚ × ℚ) × (ℚ × ℚ)) × Analysis) :=
  match inclusions_found_aux a "percentage" final_labels with
  | .error e => .error e
  | .ok ((norm_xr, norm_yr, _, _), a1) =>
    let finish := fun (x_return y_result : List ℚ) (y_coef : ℚ)
        (a2 : Analysis) =>
      match findFirstIdx (fun yv => val - 1 / 1000000 ≤ yv) norm_yr with
      | some i =>
        Except.ok (some (norm_yr.getD i 0 - norm_xr.getD i 0,
          (x_return.getD i 0, x_return.getD i 0),
          (x_return.getD i 0 * y_coef, y_result.getD i 0)), a2)
      | none => Except.ok (none, a2)
    if x_format = "number" then
      match inclusions_found_aux a1 "number" final_labels with
      | .error e => .error e
      | .ok ((x_return, y_result, _, _), a2) =>
        match a2.inc_found with
        | none => .error "AttributeError: inc_found"
        | some cache =>
          match cache false with
          | none => .error "KeyError: False"
          | some entryF =>
            match a2.labels with
            | none => .error "TypeError: labels is None"
            | some lbls =>
              let y_coef : ℚ := (entryF.inc_after_init : ℚ) /
                ((lbls.length : ℚ) - entryF.n_initial)
              finish x_return y_result y_coef a2
    else finish norm_xr norm_yr 1 a1

/-- Embeds `Analysis.rrf`: searches the `"percentage"`-normalized curve for
the first step with `norm_xr[i] >= val - 1e-6` and returns the recall
reached there with the bar coordinates; `None` when the position is never
reached. -/
def rrf (a : Analysis) (val : ℚ) (x_format : String)
    (final_labels : Bool) :
    Except String (Option (ℚ × (ℚ × ℚ) × (ℚ × ℚ)) × Analysis) :=
  match inclusions_found_aux a "percentage" final_labels with
  | .error e => .error e
  | .ok ((norm_xr, norm_yr, _, _), a1) =>
    let finish := fun (x_return y_return : List ℚ) (a2 : Analysis) =>
      match findFirstIdx (fun xv => val - 1 / 1000000 ≤ xv) norm_xr with
      | some i =>
        Except.ok (some (norm_yr.getD i 0,
          (x_return.getD i 0, x_return.getD i 0),
          (0, y_return.getD i 0)), a2)
      | none => Except.ok (none, a2)
    if x_format = "number" then
      match inclusions_found_aux a1 "number" final_labels with
      | .error e => .error e
      | .ok ((x_return, y_return, _, _), a2) =>
        finish x_return y_return a2
    else finish norm_xr norm_yr a1

/-- Pointwise update of a finite map represented as a function, embedding
`time_results[idx] = v`. -/
def updFn (f : Nat → List Nat) (k : Nat) (v : List Nat) :
    Nat → List Nat :=
  fun j => if j = k then v else f j

/-- Embeds the first walk of `avg_time_to_discovery`: for every position
`i_time` of the run's label order, the position is appended to the time
list of the item queried there when its label is 1. -/
def labelWalk (labels : List Nat) :
    List Nat → Nat → (Nat → List Nat) → (Nat → List Nat)
  | [], _, tr => tr
  | idx :: rest, t, tr =>
    labelWalk labels rest (t + 1)
      (if labels.getD idx 0 = 1 then updFn tr idx (tr idx ++ [t]) else tr)

/-- Embeds the second walk of `avg_time_to_discovery`: for every position
of the run's post-training ranking, `position + len(label_order)` is
appended for a relevant item, guarded by `len(time_results[idx]) <=
i_file`. -/
def probaWalk (labels : List Nat) (i_file L : Nat) :
    List Nat → Nat → (Nat → List Nat) → (Nat → List Nat)
  | [], _, tr => tr
  | idx :: rest, t, tr =>
    probaWalk labels i_file L rest (t + 1)
      (if labels.getD idx 0 = 1 ∧ (tr idx).length ≤ i_file then
        updFn tr idx (tr idx ++ [t + L]) else tr)

/-- Embeds the sentinel pass of `avg_time_to_discovery`: every relevant
item still missing a time for the current run gets
`len(label_order) + len(proba_order)`. -/
def sentinelFill (labels : List Nat) (i_file s : Nat)
    (tr : Nat → List Nat) : Nat → List Nat :=
  fun idx =>
    if labels.getD idx 0 = 1 ∧ (tr idx).length ≤ i_file then
      tr idx ++ [s] else tr idx

/-- One iteration of the per-run loop of `avg_time_to_discovery`:
label-order walk, proba-order walk, sentinel pass.  `_get_labeled_order`
and `_get_last_proba_order` (missing statistics helpers) are modelled from
the spec as returning the run's recorded label order with its seed size
and the run's final ranking order. -/
def attdRun (labels : List Nat) (i_file : Nat) (r : RunCore)
    (tr : Nat → List Nat) : Nat → List Nat :=
  let tr1 := labelWalk labels r.label_order 0 tr
  let tr2 := probaWalk labels i_file r.label_order.length
    r.proba_order 0 tr1
  sentinelFill labels i_file
    (r.label_order.length + r.proba_order.length) tr2

/-- The `enumerate(self.loggers.values())` loop of
`avg_time_to_discovery`, accumulating the per-item time lists. -/
def attdAllFrom (labels : List Nat) :
    List RunCore → Nat → (Nat → List Nat) → (Nat → List Nat)
  | [], _, tr => tr
  | r :: rest, i, tr =>
    attdAllFrom labels rest (i + 1) (attdRun labels i r tr)

/-- Arithmetic mean of a list of rationals (`np.average`). -/
def meanQ (l : List ℚ) : ℚ := l.sum / l.length

/-- Embeds `Analysis.avg_time_to_discovery` as a total function on item
indices (the Python dict holds the keys where `labels == 1`): per item,
the recorded times whose value is at least the `n_initial` of the run at
the same position are averaged, with 0 when none qualifies. -/
def avg_time_to_discovery (a : Analysis) : Nat → ℚ :=
  let labels := a.labels.getD []
  let tr := attdAllFrom labels a.runs 0 (fun _ => [])
  let n_initials := a.runs.map (fun r => r.n_initial)
  fun idx =>
    let times := tr idx
    let trained := ((times.enum).filter
      (fun p => n_initials.getD p.1 0 ≤ p.2)).map (fun p => p.2)
    if trained = [] then 0 else meanQ (trained.map (fun t : Nat => (t : ℚ)))

/-- The query loop of `Analysis.limits`: walks the query indices in order,
carrying the last known training-set size (`n_train`), appending to
`x_range` and to every per-probability list exactly at the steps where the
delegate returns a non-null result.  The delegate `gl` stands for the
missing `_get_limits` statistics helper, modelled from the spec as a pure
function of the query index returning the per-probability read counts or
`None` when not computable at that step. -/
def limitsLoop (r0 : RunCore) (gl : Nat → Option (List ℤ))
    (nProbs : Nat) :
    List Nat → Nat → List Nat × List (List ℤ) → List Nat × List (List ℤ)
  | [], _, acc => acc
  | q :: rest, n_train, (xr, lims) =>
    let n_train' := match r0.train_idx q with
      | some t => t.length
      | none => n_train
    match gl q with
    | some nl =>
      limitsLoop r0 gl nProbs rest n_train'
        (xr ++ [n_train'],
          (List.range nProbs).map
            (fun i => lims.getD i [] ++ [nl.getD i 0]))
    | none => limitsLoop r0 gl nProbs rest n_train' (xr, lims)

/-- Embeds `Analysis.limits`: iterates over the first logger's recorded
query count with `limitsLoop`, starting from `n_train = 0`, an empty
`x_range` and one empty list per requested probability.  The delegate
receives the run collection, the query index, the label series and the
probability list, as the spec prescribes for `_get_limits`. -/
def limits (a : Analysis)
    (getLimits : List RunCore → Nat → Option (List Nat) → List ℚ →
      Option (List ℤ))
    (probs : List ℚ) : Except String (List Nat × List (List ℤ)) :=
  match a.runs with
  | [] => .error "AttributeError: _first_file"
  | r0 :: _ =>
    .ok (limitsLoop r0 (fun q => getLimits a.runs q a.labels probs)
      probs.length (List.range r0.n_queries) 0
      ([], List.replicate probs.length []))

/-- The `x_norm` value `inclusions_found` ends up using for a given result
format: `(N - n_initial)` for `"fraction"`, divided by 100 for
`"percentage"` and divided by `N` for `"number"`. -/
def xNormOf (result_format : String) (lbls : List Nat) (e : IncEntry) :
    ℚ :=
  let x0 : ℚ := (lbls.length : ℚ) - e.n_initial
  if result_format = "percentage" then x0 / 100
  else if result_format = "number" then x0 / lbls.length
  else x0

/-- The `y_norm` value `inclusions_found` ends up using for a given result
format: `inc_after_init` for `"fraction"`, divided by 100 for
`"percentage"` and divided by itself for `"number"`. -/
def yNormOf (result_format : String) (e : IncEntry) : ℚ :=
  let y0 : ℚ := (e.inc_after_init : ℚ)
  if result_format = "percentage" then y0 / 100
  else if result_format = "number" then y0 / e.inc_after_init
  else y0

/-- The normalized step axis `(arange(len(avg)) - 0) / x_norm`. -/
def xCurve (e : IncEntry) (x_norm : ℚ) : List ℚ :=
  (List.range e.avg.length).map (fun i : Nat => (i : ℚ) / x_norm)

/-- The normalized inclusion curve `avg / y_norm`. -/
def yCurve (e : IncEntry) (y_norm : ℚ) : List ℚ :=
  e.avg.map (fun v => v / y_norm)

/-- Position of the first occurrence of `idx` in a list, if any. -/
def firstPos (idx : Nat) : List Nat → Option Nat
  | [] => none
  | e :: rest =>
    if e = idx then some 0 else (firstPos idx rest).map (fun i => i + 1)

/-- All positions at which `idx` occurs in a list, counting from `t`. -/
def posFrom (idx : Nat) : List Nat → Nat → List Nat
  | [], _ => []
  | e :: rest, t =>
    if e = idx then t :: posFrom idx rest (t + 1)
    else posFrom idx rest (t + 1)

/-- Discovery time of item `idx` in one run, as the spec describes it:
the first position in the label order; failing that, label-order length
plus the first position in the post-training ranking; failing both, the
worst-case sentinel `len(label_order) + len(proba_order)`. -/
def discoveryTime (r : RunCore) (idx : Nat) : Nat :=
  match firstPos idx r.label_order with
  | some t => t
  | none =>
    match firstPos idx r.proba_order with
    | some j => r.label_order.length + j
    | none => r.label_order.length + r.proba_order.length

/-- Size of the training-index snapshot of the most recent query up to `q`
that recorded one, and 0 when no query up to `q` did: the value the spec
says `limits` records as the cumulative training-set size. -/
def lastTrainSize (r0 : RunCore) : Nat → Nat
  | 0 =>
    match r0.train_idx 0 with
    | some t => t.length
    | none => 0
  | q + 1 =>
    match r0.train_idx (q + 1) with
    | some t => t.length
    | none => lastTrainSize r0 q

/-- The query steps among `qs` at which the limit delegate reports a
result. -/
def nonNullSteps (gl : Nat → Option (List ℤ)) (qs : List Nat) :
    List Nat :=
  qs.filter (fun q => (gl q).isSome)

/-- Reference recursion for the `x_range` output of `limitsLoop`: walks
the query list carrying the last known training size and emits it at every
non-null step. -/
def xRangeCarry (r0 : RunCore) (gl : Nat → Option (List ℤ)) :
    List Nat → Nat → List Nat
  | [], _ => []
  | q :: rest, nt =>
    let nt' := match r0.train_idx q with
      | some t => t.length
      | none => nt
    match gl q with
    | some _ => nt' :: xRangeCarry r0 gl rest nt'
    | none => xRangeCarry r0 gl rest nt'

/-- The concrete run of the spec's worked scenario: labels
`[0,1,0,1,1,0,0,1]`, label order `[0,2,1,3,4,5,6,7]`, seed size 2, empty
ranking. -/
def scenarioRun : Run where
  label_order := [0, 2, 1, 3, 4, 5, 6, 7]
  n_initial := 2
  proba_order := []
  train_idx := fun _ => none
  n_queries := 0
  run_labels := some [0, 1, 0, 1, 1, 0, 0, 1]
  run_final_labels := none

/-- The analysis of the spec's worked scenario (one run, `N = 8`,
`n_initial = 2`, `inc_after_init = 4`). -/
def scenarioAnalysis : Analysis := mkAnalysis [scenarioRun]

/-- A one-step run finding a relevant item immediately (labels
`[1,1,0,0]`). -/
def cexRunA : Run where
  label_order := [0]
  n_initial := 0
  proba_order := []
  train_idx := fun _ => none
  n_queries := 0
  run_labels := some [1, 1, 0, 0]
  run_final_labels := none

/-- A three-step run finding its only relevant item last (labels
`[1,1,0,0]`). -/
def cexRunB : Run where
  label_order := [2, 3, 1]
  n_initial := 0
  proba_order := []
  train_idx := fun _ => none
  n_queries := 0
  run_labels := some [1, 1, 0, 0]
  run_final_labels := none

/-- A single run whose only relevant item is found during the seed phase
(labels `[1,0]`, label order `[0,1]`, `n_initial = 2`), so its
`inc_after_init` is 0. -/
def seedRunW : Run where
  label_order := [0, 1]
  n_initial := 2
  proba_order := []
  train_idx := fun _ => none
  n_queries := 0
  run_labels := some [1, 0]
  run_final_labels := none

/-- An equal-length run: label order `[0,1]` over labels `[1,0]`. -/
def eqRunA : Run where
  label_order := [0, 1]
  n_initial := 0
  proba_order := []
  train_idx := fun _ => none
  n_queries := 0
  run_labels := some [1, 0]
  run_final_labels := none

/-- An equal-length run: label order `[1,0]` over labels `[1,0]`. -/
def eqRunB : Run where
  label_order := [1, 0]
  n_initial := 0
  proba_order := []
  train_idx := fun _ => none
  n_queries := 0
  run_labels := some [1, 0]
  run_final_labels := none

/-- A run whose only seed-phase discovery is item 1 and whose ranking
discovers item 3 after training (labels `[0,1,0,1]`). -/
def attdRunW : Run where
  label_order := [1, 0]
  n_initial := 1
  proba_order := [3, 2]
  train_idx := fun _ => none
  n_queries := 0
  run_labels := some [0, 1, 0, 1]
  run_final_labels := none

/-- A run recording three queries with a training-index snapshot only at
query 1. -/
def limitsRunW : Run where
  label_order := []
  n_initial := 0
  proba_order := []
  train_idx := fun q => if q = 1 then some [5, 6, 7] else none
  n_queries := 3
  run_labels := some [1, 0]
  run_final_labels := none

/-- A delegate for the stopping-limit statistic that reports no result at
query 0 and `[q, 10q]` afterwards. -/
def limitsDelegateW (_ : List RunCore) (q : Nat) (_ : Option (List Nat))
    (_ : List ℚ) : Option (List ℤ) :=
  if q = 0 then none else some [(q : ℤ), 10 * q]

/-- A run carrying both a `labels` and a differing `final_labels` series
(labels `[0,1,0,1]`, final labels `[0,1,1,1]`). -/
def finalRunW : Run where
  label_order := [1, 0, 3, 2]
  n_initial := 1
  proba_order := []
  train_idx := fun _ => none
  n_queries := 0
  run_labels := some [0, 1, 0, 1]
  run_final_labels := some [0, 1, 1, 1]

/-- A second run whose own label series agrees with the first run's. -/
def niRunBase : Run where
  label_order := [1, 0]
  n_initial := 1
  proba_order := []
  train_idx := fun _ => none
  n_queries := 2
  run_labels := some [0, 1]
  run_final_labels := none

/-- The same second run with a corrupted `labels` series: only the
label-series fields differ from `niRunBase`. -/
def niRunTampered : Run where
  label_order := [1, 0]
  n_initial := 1
  proba_order := []
  train_idx := fun _ => none
  n_queries := 2
  run_labels := some [1, 1]
  run_final_labels := some [0, 0]

/-- On a freshly constructed non-empty analysis whose selected label
series is present, `inclusions_found_aux` computes the entry from the runs
and the selected labels, caches it under the requested flag and returns
the curves normalized by `xNormOf`/`yNormOf`. -/
theorem inclusions_found_aux_fresh (r : Run) (rest : List Run)
    (lbls : List Nat) (fmt : String) (fl : Bool)
    (hl : (if fl then r.run_final_labels else r.run_labels) = some lbls) :
    inclusions_found_aux (mkAnalysis (r :: rest)) fmt fl =
      .ok ((xCurve (getIncFound ((r :: rest).map Run.toRunCore) lbls)
              (xNormOf fmt lbls
                (getIncFound ((r :: rest).map Run.toRunCore) lbls)),
            yCurve (getIncFound ((r :: rest).map Run.toRunCore) lbls)
              (yNormOf fmt
                (getIncFound ((r :: rest).map Run.toRunCore) lbls)),
            getIncFound ((r :: rest).map Run.toRunCore) lbls,
            yNormOf fmt
              (getIncFound ((r :: rest).map Run.toRunCore) lbls)),
        ⟨(r :: rest).map Run.toRunCore, r.run_labels, r.run_final_labels,
          some (fun b => if b = fl then
            some (getIncFound ((r :: rest).map Run.toRunCore) lbls)
            else none)⟩) := by
  cases fl <;>
    simp_all [inclusions_found_aux, mkAnalysis, xCurve, yCurve, xNormOf,
      yNormOf]

/-- `inclusions_found_aux` on a cache miss: computes the entry from the
runs and the selected labels and stores it under the requested flag. -/
theorem inclusions_found_aux_miss (a : Analysis) (fmt : String)
    (fl : Bool) (cache : Bool → Option IncEntry) (lblsSel : List Nat)
    (hc : a.inc_found = some cache) (hmiss : cache fl = none)
    (hsel : (if fl then a.final_labels else a.labels) = some lblsSel) :
    inclusions_found_aux a fmt fl =
      .ok ((xCurve (getIncFound a.runs lblsSel)
          (xNormOf fmt lblsSel (getIncFound a.runs lblsSel)),
        yCurve (getIncFound a.runs lblsSel)
          (yNormOf fmt (getIncFound a.runs lblsSel)),
        getIncFound a.runs lblsSel,
        yNormOf fmt (getIncFound a.runs lblsSel)),
        { a with inc_found := some fun b =>
            if b = fl then some (getIncFound a.runs lblsSel)
            else cache b }) := by
  cases fl <;>
    simp_all [inclusions_found_aux, xCurve, yCurve, xNormOf, yNormOf]

/-- `inclusions_found_aux` on a cache hit: returns the cached entry
(normalized for the requested format) and re-stores it. -/
theorem inclusions_found_aux_hit (a : Analysis) (fmt : String)
    (fl : Bool) (cache : Bool → Option IncEntry) (e : IncEntry)
    (lblsSel : List Nat)
    (hc : a.inc_found = some cache) (hhit : cache fl = some e)
    (hsel : (if fl then a.final_labels else a.labels) = some lblsSel) :
    inclusions_found_aux a fmt fl =
      .ok ((xCurve e (xNormOf fmt lblsSel e),
        yCurve e (yNormOf fmt e), e, yNormOf fmt e),
        { a with inc_found := some fun b =>
            if b = fl then some e else cache b }) := by
  cases fl <;>
    simp_all [inclusions_found_aux, xCurve, yCurve, xNormOf, yNormOf]

/-- The `"number"` display path of `wss` fails with the Python `KeyError`
when the `False`-keyed cache entry is absent after both curve lookups. -/
theorem wss_number_keyerror (a : Analysis) (val : ℚ) (fl : Bool)
    (xr yr : List ℚ) (e1 : IncEntry) (yn1 : ℚ) (a1 : Analysis)
    (q2 : List ℚ × List ℚ × IncEntry × ℚ) (a2 : Analysis)
    (cache : Bool → Option IncEntry)
    (h1 : inclusions_found_aux a "percentage" fl =
      .ok ((xr, yr, e1, yn1), a1))
    (h2 : inclusions_found_aux a1 "number" fl = .ok (q2, a2))
    (hc : a2.inc_found = some cache) (hcf : cache false = none) :
    wss a val "number" fl = .error "KeyError: False" := by
  simp only [wss, h1, h2, hc, hcf,
    if_pos (rfl : ("number" : String) = "number"), if_true]

/-- The `"number"` display path of `wss` when the `False`-keyed cache
entry exists: the search runs over the percentage curve and the third bar
coordinate scales the `"number"` x-value by `inc_after_init /
(len(labels) - n_initial)` taken from the `False`-keyed entry. -/
theorem wss_number_path (a : Analysis) (val : ℚ) (fl : Bool)
    (xr yr : List ℚ) (e1 : IncEntry) (yn1 : ℚ) (a1 : Analysis)
    (x2 y2 : List ℚ) (e2 : IncEntry) (yn2 : ℚ) (a2 : Analysis)
    (cache : Bool → Option IncEntry) (eF : IncEntry) (lbls : List Nat)
    (h1 : inclusions_found_aux a "percentage" fl =
      .ok ((xr, yr, e1, yn1), a1))
    (h2 : inclusions_found_aux a1 "number" fl =
      .ok ((x2, y2, e2, yn2), a2))
    (hc : a2.inc_found = some cache) (hcf : cache false = some eF)
    (hlab : a2.labels = some lbls) :
    wss a val "number" fl =
      (match findFirstIdx (fun yv => val - 1 / 1000000 ≤ yv) yr with
      | some i =>
        Except.ok (some (yr.getD i 0 - xr.getD i 0,
          (x2.getD i 0, x2.getD i 0),
          (x2.getD i 0 * ((eF.inc_after_init : ℚ) /
            ((lbls.length : ℚ) - eF.n_initial)), y2.getD i 0)), a2)
      | none => Except.ok (none, a2)) := by
  rcases hfi : findFirstIdx (fun yv => val - 1 / 1000000 ≤ yv) yr
    with _ | i <;>
    simp only [wss, h1, h2, hc, hcf, hlab, hfi,
      if_pos (rfl : ("number" : String) = "number"), if_true]

/-- C8: on an analysis constructed from zero runs, `inclusions_found`
fails with an invalid-state error (the `AttributeError` raised because the
labels and cache state are never initialized on an empty analysis) rather
than returning a result. -/
theorem c8_empty_analysis_fails (fmt : String) (fl : Bool) :
    inclusions_found (mkAnalysis []) fmt fl =
      .error "AttributeError: inc_found" := rfl

/-- `x_norm` in the `"number"` format is `(N - n_initial) / N`. -/
theorem xNormOf_number (lbls : List Nat) (e : IncEntry) :
    xNormOf "number" lbls e =
      ((lbls.length : ℚ) - e.n_initial) / lbls.length := rfl

/-- `y_norm` in the `"number"` format is
`inc_after_init / inc_after_init`. -/
theorem yNormOf_number (e : IncEntry) :
    yNormOf "number" e =
      (e.inc_after_init : ℚ) / e.inc_after_init := rfl

/-- `x_norm` in the `"percentage"` format is `(N - n_initial) / 100`. -/
theorem xNormOf_percentage (lbls : List Nat) (e : IncEntry) :
    xNormOf "percentage" lbls e =
      ((lbls.length : ℚ) - e.n_initial) / 100 := rfl

/-- `y_norm` in the `"percentage"` format is `inc_after_init / 100`. -/
theorem yNormOf_percentage (e : IncEntry) :
    yNormOf "percentage" e = (e.inc_after_init : ℚ) / 100 := rfl

/-- The aggregated-curve entry of the worked scenario: means
[0,0,1,2,3,3,3,4], one contributing run per step, inc_after_init 4,
n_initial 2. -/
theorem scenario_entry :
    getIncFound ((scenarioRun :: []).map Run.toRunCore)
        [0, 1, 0, 1, 1, 0, 0, 1] =
      ⟨([[0], [0], [1], [2], [3], [3], [3], [4]] :
          List (List Nat)).map meanN,
        [[0], [0], [1], [2], [3], [3], [3], [4]], 4, 2⟩ := rfl

/-- The `"number"`-format output of `inclusions_found` on the worked
scenario: x = [0, 4/3, 8/3, 4, 16/3, 20/3, 8, 28/3] and
y = [0, 0, 1, 2, 3, 3, 3, 4]. -/
theorem scenario_number_curves :
    (inclusions_found scenarioAnalysis "number" false).toOption.map
        (fun p => (p.1.1, p.1.2.1)) =
      some ([0, 4 / 3, 8 / 3, 4, 16 / 3, 20 / 3, 8, 28 / 3],
        [0, 0, 1, 2, 3, 3, 3, 4]) := by
  have hfresh := inclusions_found_aux_fresh scenarioRun []
    [0, 1, 0, 1, 1, 0, 0, 1] "number" false (by rfl)
  rw [scenario_entry] at hfresh
  simp only [inclusions_found, scenarioAnalysis, hfresh, Except.map,
    Except.toOption, Option.map_some, Option.map_some',
    Option.some.injEq, Prod.mk.injEq]
  constructor
  · simp only [xCurve, xNormOf_number]
    rw [show (⟨([[0], [0], [1], [2], [3], [3], [3], [4]] :
          List (List Nat)).map meanN,
        [[0], [0], [1], [2], [3], [3], [3], [4]], 4, 2⟩ :
          IncEntry).avg.length = 8 from rfl,
      show List.range 8 = [0, 1, 2, 3, 4, 5, 6, 7] from rfl]
    norm_num
  · simp only [yCurve, yNormOf_number]
    norm_num [meanN]

/-- C1 (counterexample): on the spec's own scenario (N = 8, n_initial = 2,
inc_after_init = 4, means [0,0,1,2,3,3,3,4]), `inclusions_found` with
result_format "number" returns x[1] = 4/3 and y[2] = 1, not the claimed
x[1] = 1/8 and y[2] = 1/4. -/
theorem c1_counterexample :
    (inclusions_found scenarioAnalysis "number" false).toOption.map
        (fun p => (p.1.1.getD 1 0, p.1.2.1.getD 2 0)) =
      some (4 / 3, 1) ∧
    ¬((4 / 3 : ℚ) = 1 / 8 ∧ (1 : ℚ) = 1 / 4) := by
  refine ⟨?_, by norm_num⟩
  obtain ⟨p, hp, hfp⟩ := Option.map_eq_some'.1 scenario_number_curves
  have hx : p.1.1 = [0, 4 / 3, 8 / 3, 4, 16 / 3, 20 / 3, 8, 28 / 3] :=
    congrArg Prod.fst hfp
  have hy : p.1.2.1 = [0, 0, 1, 2, 3, 3, 3, 4] := congrArg Prod.snd hfp
  rw [hp]
  simp only [Option.map_some', Option.some.injEq, hx, hy]
  rfl

/-- C1 (amended): with result_format "number" the code normalizes with
x_norm = (N - n_initial)/N and y_norm = inc_after_init/inc_after_init = 1;
hence x[i] = i·N/(N - n_initial) and y is the sequence of aggregated
means; on the concrete scenario this yields
x = [0, 4/3, 8/3, 4, 16/3, 20/3, 8, 28/3] and y = [0,0,1,2,3,3,3,4]. -/
theorem c1_number_normalization (r : Run) (rest : List Run)
    (lbls : List Nat) (hl : r.run_labels = some lbls)
    (hiai :
      (getIncFound ((r :: rest).map Run.toRunCore) lbls).inc_after_init ≠
        0) :
    (inclusions_found (mkAnalysis (r :: rest)) "number" false).toOption.map
        (fun p => (p.1.1, p.1.2.1)) =
      some (((List.range
          (getIncFound ((r :: rest).map Run.toRunCore) lbls).avg.length).map
          (fun i : Nat => (i : ℚ) * lbls.length /
            ((lbls.length : ℚ) -
              (getIncFound ((r :: rest).map Run.toRunCore) lbls).n_initial))),
        (getIncFound ((r :: rest).map Run.toRunCore) lbls).avg) ∧
    (inclusions_found scenarioAnalysis "number" false).toOption.map
        (fun p => (p.1.1, p.1.2.1)) =
      some ([0, 4 / 3, 8 / 3, 4, 16 / 3, 20 / 3, 8, 28 / 3],
        [0, 0, 1, 2, 3, 3, 3, 4]) := by
  refine ⟨?_, scenario_number_curves⟩
  · have hfresh := inclusions_found_aux_fresh r rest lbls "number" false
      (by simpa using hl)
    simp only [inclusions_found, hfresh, Except.map, Except.toOption,
      Option.map_some', Option.some.injEq, Prod.mk.injEq]
    refine ⟨?_, ?_⟩
    · simp only [xCurve, xNormOf_number]
      exact List.map_congr_left (fun i _ => div_div_eq_mul_div (i : ℚ) _ _)
    · simp only [yCurve, yNormOf_number]
      rw [div_self (by exact_mod_cast hiai)]
      simp [div_one]

/-- `findFirstIdx` returns `none` exactly when no element satisfies the
predicate. -/
theorem findFirstIdx_eq_none_iff (p : ℚ → Bool) (l : List ℚ) :
    findFirstIdx p l = none ↔
      ∀ i < l.length, p (l.getD i 0) = false := by
  induction l with
  | nil => simp [findFirstIdx]
  | cons v rest ih =>
    by_cases hv : p v = true
    · constructor
      · intro h; exact absurd h (by simp [findFirstIdx, hv])
      · intro h; exact absurd (h 0 (by simp)) (by simp [hv])
    · simp only [findFirstIdx, if_neg hv, Option.map_eq_none', ih]
      constructor
      · intro h i hi
        match i with
        | 0 => simpa using Bool.eq_false_iff.2 hv
        | j + 1 =>
          rw [List.getD_cons_succ]
          exact h j (by simpa using hi)
      · intro h j hj
        have := h (j + 1) (by simpa using hj)
        simpa using this

/-- `findFirstIdx` returns `some i` exactly when position `i` is the first
to satisfy the predicate. -/
theorem findFirstIdx_eq_some_iff (p : ℚ → Bool) (l : List ℚ) (i : Nat) :
    findFirstIdx p l = some i ↔
      i < l.length ∧ p (l.getD i 0) = true ∧
        ∀ j < i, p (l.getD j 0) = false := by
  induction l generalizing i with
  | nil => simp [findFirstIdx]
  | cons v rest ih =>
    by_cases hv : p v = true
    · simp only [findFirstIdx, if_pos hv, Option.some.injEq]
      constructor
      · rintro rfl
        exact ⟨by simp, by simpa using hv, by omega⟩
      · rintro ⟨hi, hpi, hmin⟩
        match i with
        | 0 => rfl
        | j + 1 =>
          exact absurd (hmin 0 (Nat.succ_pos _)) (by simp [hv])
    · simp only [findFirstIdx, if_neg hv, Option.map_eq_some']
      constructor
      · rintro ⟨i', hi', rfl⟩
        obtain ⟨h1, h2, h3⟩ := (ih i').1 hi'
        refine ⟨by simpa using Nat.succ_lt_succ h1, by simpa using h2,
          ?_⟩
        intro j hj
        match j with
        | 0 => simpa using Bool.eq_false_iff.2 hv
        | k + 1 =>
          rw [List.getD_cons_succ]
          exact h3 k (by omega)
      · rintro ⟨hi, hpi, hmin⟩
        match i with
        | 0 => exact absurd (by simpa using hpi) hv
        | j + 1 =>
          refine ⟨j, (ih j).2 ⟨by simpa using hi, by simpa using hpi,
            ?_⟩, rfl⟩
          intro k hk
          have := hmin (k + 1) (by omega)
          simpa using this

/-- C7 (counterexample): on the worked scenario, multiplying the
`"number"`-format x by N = 8 gives [0, 32/3, 64/3, ...], not the raw step
indices [0, 1, 2, ...], and multiplying y by inc_after_init = 4 gives
[0, 0, 4, ...], not the raw means [0, 0, 1, ...]. -/
theorem c7_counterexample :
    (inclusions_found scenarioAnalysis "number" false).toOption.map
        (fun p => (p.1.1.map (fun v => v * 8),
          p.1.2.1.map (fun v => v * 4))) =
      some ([0, 32 / 3, 64 / 3, 32, 128 / 3, 160 / 3, 64, 224 / 3],
        [0, 0, 4, 8, 12, 12, 12, 16]) ∧
    ¬(([0, 32 / 3, 64 / 3, 32, 128 / 3, 160 / 3, 64, 224 / 3] :
        List ℚ) = [0, 1, 2, 3, 4, 5, 6, 7] ∧
      ([0, 0, 4, 8, 12, 12, 12, 16] : List ℚ) =
        [0, 0, 1, 2, 3, 3, 3, 4]) := by
  refine ⟨?_, by norm_num⟩
  obtain ⟨p, hp, hfp⟩ := Option.map_eq_some'.1 scenario_number_curves
  have hx : p.1.1 = [0, 4 / 3, 8 / 3, 4, 16 / 3, 20 / 3, 8, 28 / 3] :=
    congrArg Prod.fst hfp
  have hy : p.1.2.1 = [0, 0, 1, 2, 3, 3, 3, 4] := congrArg Prod.snd hfp
  rw [hp]
  simp only [Option.map_some', Option.some.injEq, hx, hy]
  norm_num

/-- C7 (amended): denormalizing the `"number"`-format curve means
multiplying x elementwise by (N - n_initial)/N (not by N) and leaving y
unchanged (not multiplying by inc_after_init); that reproduces the raw
Aggregated Curve exactly: the step indices 0, 1, 2, ... and the per-step
means. -/
theorem c7_roundtrip (r : Run) (rest : List Run) (lbls : List Nat)
    (hl : r.run_labels = some lbls)
    (hiai :
      (getIncFound ((r :: rest).map Run.toRunCore) lbls).inc_after_init ≠
        0)
    (hninit :
      (getIncFound ((r :: rest).map Run.toRunCore) lbls).n_initial <
        lbls.length) :
    (inclusions_found (mkAnalysis (r :: rest)) "number" false).toOption.map
        (fun p => (p.1.1.map (fun v => v *
            (((lbls.length : ℚ) -
              (getIncFound ((r :: rest).map Run.toRunCore)
                lbls).n_initial) / lbls.length)),
          p.1.2.1)) =
      some (((List.range
          (getIncFound ((r :: rest).map Run.toRunCore) lbls).avg.length).map
          (fun i : Nat => (i : ℚ))),
        (getIncFound ((r :: rest).map Run.toRunCore) lbls).avg) := by
  have hfresh := inclusions_found_aux_fresh r rest lbls "number" false
    (by simpa using hl)
  simp only [inclusions_found, hfresh, Except.map, Except.toOption,
    Option.map_some', Option.some.injEq, Prod.mk.injEq]
  have hxn : (((lbls.length : ℚ) -
      (getIncFound ((r :: rest).map Run.toRunCore) lbls).n_initial) /
      lbls.length) ≠ 0 := by
    have h1 : ((getIncFound ((r :: rest).map Run.toRunCore)
        lbls).n_initial : ℚ) < lbls.length := by exact_mod_cast hninit
    have h2 : (lbls.length : ℚ) ≠ 0 := by
      have : 0 < lbls.length := Nat.lt_of_le_of_lt (Nat.zero_le _) hninit
      exact_mod_cast this.ne'
    exact div_ne_zero (by linarith) h2
  refine ⟨?_, ?_⟩
  · simp only [xCurve, xNormOf_number, List.map_map]
    exact List.map_congr_left
      (fun i _ => div_mul_cancel₀ (i : ℚ) hxn)
  · simp only [yCurve, yNormOf_number]
    rw [div_self (by exact_mod_cast hiai)]
    simp [div_one]

/-- C7 (witness). -/
theorem c7_roundtrip_witness :
    scenarioRun.run_labels = some [0, 1, 0, 1, 1, 0, 0, 1] ∧
    (inclusions_found scenarioAnalysis "number" false).toOption.map
        (fun p => (p.1.1.map (fun v => v *
            ((([0, 1, 0, 1, 1, 0, 0, 1].length : ℚ) -
              (getIncFound ((scenarioRun :: []).map Run.toRunCore)
                [0, 1, 0, 1, 1, 0, 0, 1]).n_initial) /
            [0, 1, 0, 1, 1, 0, 0, 1].length)),
          p.1.2.1)) =
      some (((List.range
          (getIncFound ((scenarioRun :: []).map Run.toRunCore)
            [0, 1, 0, 1, 1, 0, 0, 1]).avg.length).map
          (fun i : Nat => (i : ℚ))),
        (getIncFound ((scenarioRun :: []).map Run.toRunCore)
          [0, 1, 0, 1, 1, 0, 0, 1]).avg) :=
  ⟨rfl, c7_roundtrip scenarioRun [] [0, 1, 0, 1, 1, 0, 0, 1] rfl
    (by decide) (by decide)⟩

/-- `wss` on a fresh non-empty analysis in the default `"percentage"`
display format: the search over the percentage curve, returning the bar at
the first hit and `none` otherwise. -/
theorem wss_percentage_fresh (r : Run) (rest : List Run)
    (lbls : List Nat) (val : ℚ) (hl : r.run_labels = some lbls) :
    wss (mkAnalysis (r :: rest)) val "percentage" false =
      (match findFirstIdx (fun yv => val - 1 / 1000000 ≤ yv)
          (yCurve (getIncFound ((r :: rest).map Run.toRunCore) lbls) (yNormOf "percentage" (getIncFound ((r :: rest).map Run.toRunCore) lbls))) with
      | some i =>
        Except.ok (some ((yCurve (getIncFound ((r :: rest).map Run.toRunCore) lbls)
            (yNormOf "percentage" (getIncFound ((r :: rest).map Run.toRunCore) lbls))).getD i 0 -
          (xCurve (getIncFound ((r :: rest).map Run.toRunCore) lbls)
            (xNormOf "percentage" lbls (getIncFound ((r :: rest).map Run.toRunCore) lbls))).getD i 0,
          ((xCurve (getIncFound ((r :: rest).map Run.toRunCore) lbls)
            (xNormOf "percentage" lbls (getIncFound ((r :: rest).map Run.toRunCore) lbls))).getD i 0,
          (xCurve (getIncFound ((r :: rest).map Run.toRunCore) lbls)
            (xNormOf "percentage" lbls (getIncFound ((r :: rest).map Run.toRunCore) lbls))).getD i 0),
          ((xCurve (getIncFound ((r :: rest).map Run.toRunCore) lbls)
            (xNormOf "percentage" lbls (getIncFound ((r :: rest).map Run.toRunCore) lbls))).getD i 0 * 1,
          (yCurve (getIncFound ((r :: rest).map Run.toRunCore) lbls)
            (yNormOf "percentage" (getIncFound ((r :: rest).map Run.toRunCore) lbls))).getD i 0)),
          ⟨(r :: rest).map Run.toRunCore, r.run_labels,
            r.run_final_labels,
            some fun b => if b = false then some (getIncFound ((r :: rest).map Run.toRunCore) lbls) else none⟩)
      | none =>
        Except.ok (none,
          ⟨(r :: rest).map Run.toRunCore, r.run_labels,
            r.run_final_labels,
            some fun b => if b = false then some (getIncFound ((r :: rest).map Run.toRunCore) lbls) else none⟩)) := by
  have hfresh := inclusions_found_aux_fresh r rest lbls "percentage"
    false (by simpa using hl)
  rcases hfi : findFirstIdx (fun yv => val - 1 / 1000000 ≤ yv)
      (yCurve (getIncFound ((r :: rest).map Run.toRunCore) lbls) (yNormOf "percentage" (getIncFound ((r :: rest).map Run.toRunCore) lbls))) with _ | i <;>
    simp only [wss, hfresh, hfi,
      if_neg (show ("percentage" : String) ≠ "number" from by decide)]

/-- C4: `wss(val)` (default `"percentage"` display format) returns the
`(None, None, None)` tuple exactly when the percentage-normalized y-curve
never reaches the recall level `val/100` — i.e. never satisfies
`y[i] >= val - 1e-6` in percentage units, the documented tolerance —
within its step range; otherwise it returns, at the first step `i` meeting
the threshold, the value `y[i] - x[i]` with the bar coordinates at `i`.
(`inc_after_init ≠ 0` keeps the rational model aligned with the float
code, which would produce infinities on a zero normalizer.) -/
theorem c4_wss_none_iff (r : Run) (rest : List Run) (lbls : List Nat)
    (val : ℚ) (x y : List ℚ) (hl : r.run_labels = some lbls)
    (hiai :
      (getIncFound ((r :: rest).map Run.toRunCore) lbls).inc_after_init ≠
        0)
    (hx : x = xCurve (getIncFound ((r :: rest).map Run.toRunCore) lbls)
      (xNormOf "percentage" lbls
        (getIncFound ((r :: rest).map Run.toRunCore) lbls)))
    (hy : y = yCurve (getIncFound ((r :: rest).map Run.toRunCore) lbls)
      (yNormOf "percentage"
        (getIncFound ((r :: rest).map Run.toRunCore) lbls))) :
    ((wss (mkAnalysis (r :: rest)) val "percentage" false).toOption.map
        Prod.fst = some none ↔
      ∀ i < y.length, y.getD i 0 < val - 1 / 1000000) ∧
    ∀ i < y.length, val - 1 / 1000000 ≤ y.getD i 0 →
      (∀ j < i, y.getD j 0 < val - 1 / 1000000) →
      (wss (mkAnalysis (r :: rest)) val "percentage" false).toOption.map
          Prod.fst =
        some (some (y.getD i 0 - x.getD i 0, (x.getD i 0, x.getD i 0),
          (x.getD i 0 * 1, y.getD i 0))) := by
  subst hx hy
  have hw := wss_percentage_fresh r rest lbls val hl
  rcases hfi : findFirstIdx (fun yv => val - 1 / 1000000 ≤ yv)
      (yCurve (getIncFound ((r :: rest).map Run.toRunCore) lbls)
        (yNormOf "percentage"
          (getIncFound ((r :: rest).map Run.toRunCore) lbls)))
    with _ | i
  · rw [hfi] at hw
    have hall := (findFirstIdx_eq_none_iff _ _).1 hfi
    constructor
    · rw [hw]
      simp only [Except.toOption, Option.map_some']
      constructor
      · intro _ i hi
        have := hall i hi
        rw [decide_eq_false_iff_not, not_le] at this
        exact this
      · intro _
        trivial
    · intro i hi hthr _
      have := hall i hi
      rw [decide_eq_false_iff_not] at this
      exact absurd hthr this
  · rw [hfi] at hw
    obtain ⟨hi, hpi, hmin⟩ := (findFirstIdx_eq_some_iff _ _ _).1 hfi
    rw [decide_eq_true_eq] at hpi
    constructor
    · constructor
      · intro h
        rw [hw] at h
        simp [Except.toOption] at h
      · intro h
        exact absurd hpi (not_le.2 (h i hi))
    · intro i' hi' hthr' hmin'
      have hii : i' = i := by
        rcases lt_trichotomy i' i with hlt | heq | hgt
        · have := hmin i' hlt
          rw [decide_eq_false_iff_not] at this
          exact absurd hthr' this
        · exact heq
        · exact absurd hpi (not_le.2 (hmin' i hgt))
      subst hii
      rw [hw]
      simp [Except.toOption]

/-- C4 (witness). -/
theorem c4_wss_none_iff_witness :
    scenarioRun.run_labels = some [0, 1, 0, 1, 1, 0, 0, 1] ∧
    ((wss scenarioAnalysis 100 "percentage" false).toOption.map
        Prod.fst = some none ↔
      ∀ i < (yCurve (getIncFound ((scenarioRun :: []).map Run.toRunCore)
          [0, 1, 0, 1, 1, 0, 0, 1])
          (yNormOf "percentage" (getIncFound ((scenarioRun :: []).map Run.toRunCore)
          [0, 1, 0, 1, 1, 0, 0, 1]))).length,
        (yCurve (getIncFound ((scenarioRun :: []).map Run.toRunCore)
          [0, 1, 0, 1, 1, 0, 0, 1])
          (yNormOf "percentage" (getIncFound ((scenarioRun :: []).map Run.toRunCore)
          [0, 1, 0, 1, 1, 0, 0, 1]))).getD i 0 <
          100 - 1 / 1000000) :=
  ⟨rfl, (c4_wss_none_iff scenarioRun [] [0, 1, 0, 1, 1, 0, 0, 1] 100 _ _
    rfl (by decide) rfl rfl).1⟩

/-- C10: `wss` with `x_format="number"` reads the cache entry keyed
`final_labels=False` regardless of the `final_labels` argument: on a fresh
analysis, `wss(val, "number", final_labels=True)` raises a `KeyError`
because only the `True`-keyed entry has been populated; and when both
entries exist, the scaling coefficient applied to the x bar coordinate is
`inc_after_init / (len(labels) - n_initial)` of the non-final labels'
entry even though the curve searched is the final-labels curve. -/
theorem c10_wss_number_final (r : Run) (rest : List Run)
    (lbls flbls : List Nat) (val : ℚ)
    (hl : r.run_labels = some lbls)
    (hfl : r.run_final_labels = some flbls) :
    wss (mkAnalysis (r :: rest)) val "number" true =
      .error "KeyError: False" ∧
    ∀ (xy : List ℚ × List ℚ × IncEntry × ℚ) (a1 : Analysis)
      (bar : ℚ × (ℚ × ℚ) × (ℚ × ℚ)) (a2 : Analysis),
      inclusions_found_aux (mkAnalysis (r :: rest)) "fraction" false =
        .ok (xy, a1) →
      wss a1 val "number" true = .ok (some bar, a2) →
      bar.2.2.1 = bar.2.1.1 *
        (((getIncFound ((r :: rest).map Run.toRunCore)
            lbls).inc_after_init : ℚ) /
          ((lbls.length : ℚ) -
            (getIncFound ((r :: rest).map Run.toRunCore)
              lbls).n_initial)) := by
  constructor
  · have hp := inclusions_found_aux_fresh r rest flbls "percentage" true
      (by simpa using hfl)
    have hn := inclusions_found_aux_hit
      (⟨(r :: rest).map Run.toRunCore, r.run_labels, r.run_final_labels,
        some fun b => if b = true then
          some (getIncFound ((r :: rest).map Run.toRunCore) flbls)
          else none⟩)
      "number" true _
      (getIncFound ((r :: rest).map Run.toRunCore) flbls) flbls rfl rfl
      (by simpa using hfl)
    exact wss_number_keyerror _ val true _ _ _ _ _ _ _ _ hp hn rfl rfl
  · intro xy a1 bar a2 haux hwss
    have hfr := inclusions_found_aux_fresh r rest lbls "fraction" false
      (by simpa using hl)
    rw [haux] at hfr
    simp only [Except.ok.injEq, Prod.mk.injEq] at hfr
    obtain ⟨hxy, ha1⟩ := hfr
    subst ha1
    have hp := inclusions_found_aux_miss
      (⟨(r :: rest).map Run.toRunCore, r.run_labels, r.run_final_labels,
        some fun b => if b = false then
          some (getIncFound ((r :: rest).map Run.toRunCore) lbls)
          else none⟩)
      "percentage" true _ flbls rfl rfl (by simpa using hfl)
    have hn := inclusions_found_aux_hit
      (⟨(r :: rest).map Run.toRunCore, r.run_labels, r.run_final_labels,
        some fun b => if b = true then
          some (getIncFound ((r :: rest).map Run.toRunCore) flbls)
          else if b = false then
            some (getIncFound ((r :: rest).map Run.toRunCore) lbls)
          else none⟩)
      "number" true _
      (getIncFound ((r :: rest).map Run.toRunCore) flbls) flbls rfl rfl
      (by simpa using hfl)
    have hw := wss_number_path _ val true _ _ _ _ _ _ _ _ _ _ _
      (getIncFound ((r :: rest).map Run.toRunCore) lbls) lbls hp hn rfl
      rfl (by simpa using hl)
    rw [hw] at hwss
    rcases hfi : findFirstIdx (fun yv => val - 1 / 1000000 ≤ yv)
        (yCurve (getIncFound ((r :: rest).map Run.toRunCore) flbls)
          (yNormOf "percentage"
            (getIncFound ((r :: rest).map Run.toRunCore) flbls)))
      with _ | i
    · rw [hfi] at hwss
      simp at hwss
    · rw [hfi] at hwss
      simp only [Except.ok.injEq, Prod.mk.injEq, Option.some.injEq]
        at hwss
      obtain ⟨hbar, _⟩ := hwss
      rw [← hbar]

/-- C10 (witness). -/
theorem c10_wss_number_final_witness :
    finalRunW.run_labels = some [0, 1, 0, 1] ∧
    wss (mkAnalysis (finalRunW :: [])) 100 "number" true =
      .error "KeyError: False" :=
  ⟨rfl, (c10_wss_number_final finalRunW [] [0, 1, 0, 1] [0, 1, 1, 1] 100
    rfl rfl).1⟩

/-- C2 (counterexample): a single-run collection whose only relevant item
is found during the seed phase has `inc_after_init = 0`; the returned
y_error is then `np.zeros(...) / 0`, which numpy evaluates to NaN entries
(modelled as `none`), not to zeros. -/
theorem c2_counterexample :
    (inclusions_found (mkAnalysis [seedRunW]) "fraction"
        false).toOption.map (fun p => p.1.2.2) =
      some [none, none] ∧
    ¬(([none, none] : List (Option ℝ)) =
        List.replicate 2 (some (0 : ℝ))) := by
  refine ⟨?_, by simp⟩
  have hfresh := inclusions_found_aux_fresh seedRunW [] [1, 0]
    "fraction" false (by rfl)
  have hent : getIncFound ((seedRunW :: []).map Run.toRunCore) [1, 0] =
      ⟨([[1], [1]] : List (List Nat)).map meanN, [[1], [1]], 0, 2⟩ :=
    rfl
  rw [hent] at hfresh
  simp only [inclusions_found, hfresh, Except.map, Except.toOption,
    Option.map_some', Option.some.injEq]
  rw [show (mkAnalysis [seedRunW]).runs.length = 1 from rfl,
    getIncFoundErr, if_pos rfl]
  rw [show (⟨([[1], [1]] : List (List Nat)).map meanN, [[1], [1]], 0, 2⟩
      : IncEntry).curVals.length = 2 from rfl]
  rw [List.map_replicate]
  rw [show ((yNormOf "fraction"
      (⟨([[1], [1]] : List (List Nat)).map meanN, [[1], [1]], 0, 2⟩ :
        IncEntry) : ℚ) : ℝ) = 0 by norm_num [yNormOf]]
  simp [divFloat]

/-- C2 (amended): at every step of the aggregated curve of a non-empty
analysis, the dispersion computed by `_get_inc_found` equals the raw
contributed value when exactly one run contributes at that step, and
equals the sample standard error of the mean (sample standard deviation
over the square root of the sample count) when more than one run
contributes; and when the collection holds exactly one run overall whose
`inc_after_init` is non-zero, the entire returned y_error sequence of
`inclusions_found` is all zeros (with `inc_after_init = 0` the returned
entries are numpy NaNs, not zeros). -/
theorem c2_dispersion (r : Run) (rest : List Run) (lbls : List Nat)
    (e : IncEntry) (errs : List ℝ)
    (hl : r.run_labels = some lbls)
    (hE : e = getIncFound ((r :: rest).map Run.toRunCore) lbls)
    (herr : errs =
      getIncFoundErr ((r :: rest).map Run.toRunCore).length e) :
    ((r :: rest).length ≠ 1 → ∀ i < e.curVals.length,
      (((e.curVals.getD i []).length = 1 →
        errs.getD i 0 = (((e.curVals.getD i []).headD 0 : Nat) : ℝ)) ∧
      (1 < (e.curVals.getD i []).length →
        errs.getD i 0 =
          Real.sqrt ((sampleVarQ (e.curVals.getD i []) : ℚ) : ℝ) /
            Real.sqrt ((e.curVals.getD i []).length : ℝ)))) ∧
    (rest = [] →
      errs = List.replicate e.curVals.length 0 ∧
      (e.inc_after_init ≠ 0 →
        (inclusions_found (mkAnalysis (r :: rest)) "fraction"
            false).toOption.map (fun p => p.1.2.2) =
          some (List.replicate e.curVals.length (some (0 : ℝ))))) := by
  constructor
  · intro hne i hi
    have hlen : ((r :: rest).map Run.toRunCore).length ≠ 1 := by
      simpa using hne
    have hgd : errs.getD i 0 = stepErr (e.curVals.getD i []) := by
      rw [herr, getIncFoundErr, if_neg hlen,
        List.getD_eq_getElem _ _ (by simpa using hi),
        List.getElem_map, List.getD_eq_getElem _ _ hi]
    constructor
    · intro h1
      rw [hgd, stepErr, if_pos h1]
    · intro h2
      have hvar : (0 : ℚ) ≤ sampleVarQ (e.curVals.getD i []) := by
        apply div_nonneg
        · apply List.sum_nonneg
          intro q hq
          obtain ⟨v, _, rfl⟩ := List.mem_map.1 hq
          positivity
        · have : (2 : ℚ) ≤ ((e.curVals.getD i []).length : ℚ) := by
            exact_mod_cast h2
          linarith
      rw [hgd, stepErr, if_neg (by omega), semR,
        Real.sqrt_div (by exact_mod_cast hvar)]
  · intro hrest
    subst hrest
    have herr0 : errs = List.replicate e.curVals.length 0 := by
      rw [herr, getIncFoundErr, if_pos (by simp)]
    refine ⟨herr0, fun hne0 => ?_⟩
    have hfresh := inclusions_found_aux_fresh r [] lbls "fraction" false
      (by simpa using hl)
    rw [← hE] at hfresh
    simp only [inclusions_found, hfresh, Except.map, Except.toOption,
      Option.map_some', Option.some.injEq]
    have hyn : ((yNormOf "fraction" e : ℚ) : ℝ) ≠ 0 := by
      have h1 : yNormOf "fraction" e = (e.inc_after_init : ℚ) := rfl
      rw [h1]
      exact_mod_cast hne0
    rw [show (mkAnalysis [r]).runs.length =
      (List.map Run.toRunCore [r]).length from rfl]
    simp only [← herr, herr0, List.map_replicate, divFloat,
      if_neg hyn, zero_div]

/-- C2 (witness): in the two-run collection `[cexRunA, cexRunB]` step 1
has exactly one contributing run, so the dispersion there equals the raw
contributed value. -/
theorem c2_dispersion_witness :
    ([cexRunA, cexRunB] : List Run).length ≠ 1 ∧
    (getIncFoundErr ([cexRunA, cexRunB].map Run.toRunCore).length
        (getIncFound ([cexRunA, cexRunB].map Run.toRunCore)
          [1, 1, 0, 0])).getD 1 0 =
      ((((getIncFound ([cexRunA, cexRunB].map Run.toRunCore)
        [1, 1, 0, 0]).curVals.getD 1 []).headD 0 : Nat) : ℝ) :=
  ⟨by decide, ((c2_dispersion cexRunA [cexRunB] [1, 1, 0, 0] _ _ rfl rfl
    rfl).1 (by decide) 1 (by decide)).1 (by decide)⟩

/-- C9: noninterference with respect to non-first runs' label series.
The analysis state built by `mkAnalysis` keeps only the core series of
every run plus the first run's `labels`/`final_labels`; two collections
agreeing on all core series and on the first run's label series produce
the same analysis and hence identical results from every public
operation, whatever the other runs' `labels`/`final_labels` say. -/
theorem c9_noninterference (rs1 rs2 : List Run)
    (hcore : rs1.map Run.toRunCore = rs2.map Run.toRunCore)
    (hlab : rs1.head?.map (fun r => r.run_labels) =
      rs2.head?.map (fun r => r.run_labels))
    (hflab : rs1.head?.map (fun r => r.run_final_labels) =
      rs2.head?.map (fun r => r.run_final_labels)) :
    mkAnalysis rs1 = mkAnalysis rs2 ∧
    (∀ fmt fl, inclusions_found (mkAnalysis rs1) fmt fl =
      inclusions_found (mkAnalysis rs2) fmt fl) ∧
    (∀ val xf fl, wss (mkAnalysis rs1) val xf fl =
      wss (mkAnalysis rs2) val xf fl) ∧
    (∀ val xf fl, rrf (mkAnalysis rs1) val xf fl =
      rrf (mkAnalysis rs2) val xf fl) ∧
    avg_time_to_discovery (mkAnalysis rs1) =
      avg_time_to_discovery (mkAnalysis rs2) ∧
    (∀ gl probs, limits (mkAnalysis rs1) gl probs =
      limits (mkAnalysis rs2) gl probs) := by
  have hmk : mkAnalysis rs1 = mkAnalysis rs2 := by
    cases rs1 with
    | nil =>
      cases rs2 with
      | nil => rfl
      | cons b bs => simp at hcore
    | cons a as =>
      cases rs2 with
      | nil => simp at hcore
      | cons b bs =>
        simp only [List.head?_cons, Option.map_some',
          Option.some.injEq] at hlab hflab
        simp only [mkAnalysis]
        rw [hcore, hlab, hflab]
  exact ⟨hmk, fun fmt fl => by rw [hmk], fun val xf fl => by rw [hmk],
    fun val xf fl => by rw [hmk], by rw [hmk],
    fun gl probs => by rw [hmk]⟩

/-- C9 (witness): tampering with the second run's label series leaves the
constructed analysis unchanged. -/
theorem c9_noninterference_witness :
    mkAnalysis [finalRunW, niRunBase] =
      mkAnalysis [finalRunW, niRunTampered] :=
  (c9_noninterference [finalRunW, niRunBase]
    [finalRunW, niRunTampered] rfl rfl rfl).1

/-- Folding `max` over a non-empty constant list gives the constant. -/
theorem foldr_max_const (L : Nat) (ls : List Nat)
    (h : ∀ x ∈ ls, x = L) (hne : ls ≠ []) : ls.foldr max 0 = L := by
  induction ls with
  | nil => exact absurd rfl hne
  | cons a t ih =>
    rcases t with _ | ⟨b, t'⟩
    · simp [h a (by simp)]
    · have := ih (fun x hx => h x (by simp [hx])) (by simp)
      simp only [List.foldr_cons] at this ⊢
      rw [this, h a (by simp), max_self]

/-- When every list is long enough, collecting position `i` by
`filterMap get?` is the same as mapping `getD`. -/
theorem filterMap_get?_eq_map (Ls : List (List Nat)) (i : Nat)
    (h : ∀ l ∈ Ls, i < l.length) :
    Ls.filterMap (fun l => l.get? i) =
      Ls.map (fun l => l.getD i 0) := by
  induction Ls with
  | nil => rfl
  | cons l t ih =>
    have hl : l.get? i = some (l.getD i 0) := by
      rw [List.get?_eq_getElem?, List.getElem?_eq_getElem (h l (by simp)),
        List.getD_eq_getElem _ _ (h l (by simp))]
    simp only [List.filterMap_cons, hl, List.map_cons]
    rw [ih (fun l' hl' => h l' (by simp [hl']))]

/-- The mean of naturals each at most `B` is at most `B`. -/
theorem meanN_le_of_forall (vals : List Nat) (B : Nat) (hne : vals ≠ [])
    (h : ∀ v ∈ vals, v ≤ B) : meanN vals ≤ (B : ℚ) := by
  have hlen : (0 : ℚ) < vals.length := by
    exact_mod_cast List.length_pos.2 hne
  rw [meanN, div_le_iff hlen]
  have hsum : (vals.map (fun v : Nat => (v : ℚ))).sum ≤
      (vals.map (fun v : Nat => (v : ℚ))).length • (B : ℚ) := by
    apply List.sum_le_card_nsmul
    intro x hx
    obtain ⟨v, hv, rfl⟩ := List.mem_map.1 hx
    exact_mod_cast h v hv
  rw [List.length_map] at hsum
  rw [nsmul_eq_mul] at hsum
  calc (vals.map (fun v : Nat => (v : ℚ))).sum ≤ (vals.length : ℚ) * B :=
        hsum
    _ = (B : ℚ) * vals.length := by ring

/-- Comparing two functions pointwise on a list lifts to the rational
sums of their images. -/
theorem sum_map_cast_le (Ls : List (List Nat)) (f g : List Nat → Nat)
    (h : ∀ l ∈ Ls, f l ≤ g l) :
    ((Ls.map f).map (fun v : Nat => (v : ℚ))).sum ≤
      ((Ls.map g).map (fun v : Nat => (v : ℚ))).sum := by
  induction Ls with
  | nil => simp
  | cons l t ih =>
    simp only [List.map_cons, List.sum_cons]
    have h1 : ((f l : ℚ)) ≤ ((g l : ℚ)) := by
      exact_mod_cast h l (by simp)
    have h2 := ih (fun l' hl' => h l' (by simp [hl']))
    linarith

/-- Comparing two functions pointwise on a list lifts to the means of
their images. -/
theorem meanN_map_le (Ls : List (List Nat)) (f g : List Nat → Nat)
    (h : ∀ l ∈ Ls, f l ≤ g l) :
    meanN (Ls.map f) ≤ meanN (Ls.map g) := by
  rcases eq_or_ne Ls [] with rfl | hne
  · simp [meanN]
  · have hpos : (0 : ℚ) < Ls.length := by
      exact_mod_cast List.length_pos.2 hne
    rw [meanN, meanN, List.length_map, List.length_map]
    exact (div_le_div_right hpos).2 (sum_map_cast_le Ls f g h)

/-- Counting label-1 positions over the index range equals counting the 1
entries of the label list. -/
theorem count_ones_range (labels : List Nat) :
    (List.range labels.length).countP
      (fun i => labels.getD i 0 = 1) = labels.count 1 := by
  induction labels with
  | nil => rfl
  | cons a t ih =>
    have hrange : List.range (a :: t).length =
        0 :: (List.range t.length).map Nat.succ := by
      rw [List.length_cons, List.range_succ_eq_map]
    rw [hrange, List.countP_cons, List.countP_map]
    have hmap : (List.range t.length).countP
        ((fun i => decide ((a :: t).getD i 0 = 1)) ∘ Nat.succ) =
        (List.range t.length).countP (fun i => decide (t.getD i 0 = 1)) := by
      apply List.countP_congr
      intro x _
      simp [Function.comp]
    rw [hmap, ih]
    by_cases ha : a = 1 <;> simp [List.count_cons, ha]

/-- A duplicate-free list of in-range indices contains at most
`labels.count 1` indices whose label is 1. -/
theorem countOnes_le_count (labels s : List Nat) (hnd : s.Nodup)
    (hin : ∀ e ∈ s, e < labels.length) :
    countOnes labels s ≤ labels.count 1 := by
  rw [countOnes, List.countP_eq_length_filter]
  have hsub : s.filter (fun e => labels.getD e 0 = 1) ⊆
      (List.range labels.length).filter
        (fun i => labels.getD i 0 = 1) := by
    intro e he
    rw [List.mem_filter] at he ⊢
    exact ⟨List.mem_range.2 (hin e he.1), he.2⟩
  have hnd2 : (s.filter (fun e => labels.getD e 0 = 1)).Nodup :=
    hnd.filter _
  calc (s.filter (fun e => labels.getD e 0 = 1)).length
      ≤ ((List.range labels.length).filter
          (fun i => labels.getD i 0 = 1)).length :=
        (hnd2.subperm hsub).length_le
    _ = (List.range labels.length).countP
          (fun i => labels.getD i 0 = 1) :=
        (List.countP_eq_length_filter _ _).symm
    _ = labels.count 1 := count_ones_range labels

/-- The inclusion curve of a run has one entry per label-order step. -/
theorem findInclusions_length (r : RunCore) (labels : List Nat) :
    (findInclusions r labels).1.length = r.label_order.length := by
  simp [findInclusions]

/-- Entry `i` of the inclusion curve counts the relevant items among the
first `i+1` queried items. -/
theorem findInclusions_getD (r : RunCore) (labels : List Nat) (i : Nat)
    (hi : i < r.label_order.length) :
    (findInclusions r labels).1.getD i 0 =
      countOnes labels (r.label_order.take (i + 1)) := by
  simp only [findInclusions]
  rw [List.getD_eq_getElem _ _ (by simpa using hi), List.getElem_map,
    List.getElem_range]

/-- Counting over a longer prefix can only increase. -/
theorem countOnes_take_mono (labels lo : List Nat) (i j : Nat)
    (hij : i ≤ j) :
    countOnes labels (lo.take i) ≤ countOnes labels (lo.take j) := by
  rw [countOnes, countOnes]
  have hsub : List.Sublist (lo.take i) (lo.take j) := by
    rw [show lo.take i = (lo.take j).take i from by
      rw [List.take_take, min_eq_left hij]]
    exact List.take_sublist _ _
  exact hsub.countP_le _

/-- The aggregated `avg` is the per-step mean of `curVals`. -/
theorem getIncFound_avg (runs : List RunCore) (labels : List Nat) :
    (getIncFound runs labels).avg =
      (getIncFound runs labels).curVals.map meanN := rfl

/-- With runs of equal label-order length `L`, every step below `L`
collects one value from every run, so `curVals` is a plain transpose of
the per-run inclusion curves. -/
theorem getIncFound_curVals_eq (runs : List RunCore)
    (labels : List Nat) (L : Nat) (hne : runs ≠ [])
    (hL : ∀ r ∈ runs, r.label_order.length = L) :
    (getIncFound runs labels).curVals =
      (List.range L).map (fun i =>
        (runs.map (fun r => (findInclusions r labels).1)).map
          (fun l => l.getD i 0)) := by
  simp only [getIncFound, List.map_map]
  have hlens : ∀ x ∈ List.map (List.length ∘
      (fun p : List Nat × Nat × Nat => p.1) ∘
      (fun r => findInclusions r labels)) runs, x = L := by
    intro x hx
    obtain ⟨r, hr, rfl⟩ := List.mem_map.1 hx
    simp only [Function.comp]
    rw [findInclusions_length]
    exact hL r hr
  rw [foldr_max_const L _ hlens (by simpa using hne)]
  apply List.map_congr_left
  intro i hi
  rw [filterMap_get?_eq_map _ _ (fun l hl => by
    obtain ⟨r, hr, rfl⟩ := List.mem_map.1 hl
    simp only [Function.comp]
    rw [findInclusions_length, hL r hr]
    exact List.mem_range.1 hi)]
  simp [List.map_map, Function.comp]

/-- The aggregated-curve entry of the ragged two-run collection
`[cexRunA, cexRunB]` over labels `[1,1,0,0]`: per-step contributors
`[[1,0],[0],[1]]`, hence means `[1/2, 0, 1]`. -/
theorem cex_entry :
    getIncFound ([cexRunA, cexRunB].map Run.toRunCore) [1, 1, 0, 0] =
      ⟨([[1, 0], [0], [1]] : List (List Nat)).map meanN,
        [[1, 0], [0], [1]], 1, 0⟩ := rfl

/-- C3 (counterexample): on the ragged collection `[cexRunA, cexRunB]`
(whose per-run inclusion curves `[1]` and `[0,0,1]` are both
non-decreasing), the y-sequence of `inclusions_found("number", False)` is
`[1/2, 0, 1]`, which is not non-decreasing (step 0 exceeds step 1). -/
theorem c3_counterexample :
    (inclusions_found (mkAnalysis [cexRunA, cexRunB]) "number"
        false).toOption.map (fun p => p.1.2.1) =
      some [1 / 2, 0, 1] ∧
    ¬ List.Sorted (· ≤ ·) [(1 : ℚ) / 2, 0, 1] := by
  constructor
  · have hfresh := inclusions_found_aux_fresh cexRunA [cexRunB]
      [1, 1, 0, 0] "number" false (by rfl)
    rw [cex_entry] at hfresh
    simp only [inclusions_found, hfresh, Except.map, Except.toOption,
      Option.map_some', Option.some.injEq]
    simp only [yCurve, yNormOf_number]
    norm_num [meanN]
  · intro h
    have := (List.sorted_cons.1 h).1 0 (by simp)
    norm_num at this

/-- C3 (amended): for a collection of runs whose label orders all have the
same length `L`, are duplicate-free and reference in-range items, the
y-sequence of `inclusions_found("number", False)` is non-decreasing and
every element is bounded above by the total number of relevant items in
Labels.  (The counterexample shows the claim fails for ragged run lengths:
when a short run with a high count stops contributing, the mean can
drop.) -/
theorem c3_monotone_bounded (r : Run) (rest : List Run)
    (lbls : List Nat) (L : Nat) (ys : List ℚ)
    (hl : r.run_labels = some lbls)
    (hL : ∀ rc ∈ (r :: rest).map Run.toRunCore,
      rc.label_order.length = L)
    (hnd : ∀ rc ∈ (r :: rest).map Run.toRunCore, rc.label_order.Nodup)
    (hrange : ∀ rc ∈ (r :: rest).map Run.toRunCore,
      ∀ e ∈ rc.label_order, e < lbls.length)
    (hiai :
      (getIncFound ((r :: rest).map Run.toRunCore) lbls).inc_after_init ≠
        0)
    (hys : (inclusions_found (mkAnalysis (r :: rest)) "number"
        false).toOption.map (fun p => p.1.2.1) = some ys) :
    List.Sorted (· ≤ ·) ys ∧ ∀ v ∈ ys, v ≤ (lbls.count 1 : ℚ) := by
  have hfresh := inclusions_found_aux_fresh r rest lbls "number" false
    (by simpa using hl)
  have hysavg :
      ys = (getIncFound ((r :: rest).map Run.toRunCore) lbls).avg := by
    simp only [inclusions_found, hfresh, Except.map, Except.toOption,
      Option.map_some', Option.some.injEq] at hys
    rw [← hys]
    simp only [yCurve, yNormOf_number]
    rw [div_self (by exact_mod_cast hiai)]
    simp [div_one]
  subst hysavg
  have hcv := getIncFound_curVals_eq ((r :: rest).map Run.toRunCore)
    lbls L (by simp) hL
  have havg : (getIncFound ((r :: rest).map Run.toRunCore) lbls).avg =
      (List.range L).map (fun i =>
        meanN ((((r :: rest).map Run.toRunCore).map
          (fun rc => (findInclusions rc lbls).1)).map
          (fun l => l.getD i 0))) := by
    rw [getIncFound_avg, hcv, List.map_map]
    rfl
  rw [havg]
  have hmem_len : ∀ l ∈ ((r :: rest).map Run.toRunCore).map
      (fun rc => (findInclusions rc lbls).1), l.length = L := by
    intro l hl'
    obtain ⟨rc, hrc, rfl⟩ := List.mem_map.1 hl'
    rw [findInclusions_length]
    exact hL rc hrc
  have hrunmono : ∀ l ∈ ((r :: rest).map Run.toRunCore).map
      (fun rc => (findInclusions rc lbls).1),
      ∀ i j, i ≤ j → j < L → l.getD i 0 ≤ l.getD j 0 := by
    intro l hl' i j hij hj
    obtain ⟨rc, hrc, rfl⟩ := List.mem_map.1 hl'
    have hlen := hL rc hrc
    rw [findInclusions_getD rc lbls i (by omega),
      findInclusions_getD rc lbls j (by omega)]
    exact countOnes_take_mono lbls rc.label_order (i + 1) (j + 1)
      (by omega)
  have hrunbound : ∀ l ∈ ((r :: rest).map Run.toRunCore).map
      (fun rc => (findInclusions rc lbls).1),
      ∀ i, l.getD i 0 ≤ lbls.count 1 := by
    intro l hl' i
    obtain ⟨rc, hrc, rfl⟩ := List.mem_map.1 hl'
    by_cases hi : i < rc.label_order.length
    · rw [findInclusions_getD rc lbls i hi]
      apply countOnes_le_count
      · exact ((hnd rc hrc).sublist (List.take_sublist _ _))
      · intro e he
        exact hrange rc hrc e (List.mem_of_mem_take he)
    · have hge : (findInclusions rc lbls).1.length ≤ i := by
        rw [findInclusions_length]
        omega
      rw [List.getD_eq_default _ _ hge]
      exact Nat.zero_le _
  constructor
  · rw [List.Sorted, List.pairwise_map]
    apply List.Pairwise.imp_of_mem ?_ (List.pairwise_lt_range L)
    intro i j hi hj hij
    exact meanN_map_le _ _ _ (fun l hl' =>
      hrunmono l hl' i j (le_of_lt hij) (List.mem_range.1 hj))
  · intro v hv
    obtain ⟨i, hi, rfl⟩ := List.mem_map.1 hv
    apply meanN_le_of_forall
    · simp
    · intro w hw
      obtain ⟨l, hl', rfl⟩ := List.mem_map.1 hw
      exact hrunbound l hl' i

/-- C3 (witness). -/
theorem c3_monotone_bounded_witness :
    eqRunA.run_labels = some [1, 0] ∧
    (List.Sorted (· ≤ ·) [(1 : ℚ) / 2, 1] ∧
      ∀ v ∈ [(1 : ℚ) / 2, 1], v ≤ (([1, 0] : List Nat).count 1 : ℚ)) :=
  ⟨rfl, c3_monotone_bounded eqRunA [eqRunB] [1, 0] 2 [1 / 2, 1] rfl
    (by decide) (by decide) (by decide) (by decide)
    (by
      have hfresh := inclusions_found_aux_fresh eqRunA [eqRunB] [1, 0]
        "number" false (by rfl)
      simp only [inclusions_found, hfresh, Except.map, Except.toOption,
        Option.map_some', Option.some.injEq]
      rw [show getIncFound (([eqRunA, eqRunB] : List Run).map
          Run.toRunCore) [1, 0] =
        ⟨([[1, 0], [1, 1]] : List (List Nat)).map meanN,
          [[1, 0], [1, 1]], 1, 0⟩ from rfl]
      simp only [yCurve, yNormOf_number]
      norm_num [meanN])⟩

/-- `posFrom` of an absent item is empty. -/
theorem posFrom_of_not_mem (idx : Nat) :
    ∀ (l : List Nat) (t : Nat), idx ∉ l → posFrom idx l t = []
  | [], _, _ => rfl
  | e :: rest, t, h => by
    have he : e ≠ idx := fun hc => h (by simp [hc])
    rw [posFrom, if_neg he]
    exact posFrom_of_not_mem idx rest (t + 1) (fun hc => h (by simp [hc]))

/-- `firstPos` of an absent item is `none`. -/
theorem firstPos_of_not_mem (idx : Nat) :
    ∀ (l : List Nat), idx ∉ l → firstPos idx l = none
  | [], _ => rfl
  | e :: rest, h => by
    have he : e ≠ idx := fun hc => h (by simp [hc])
    rw [firstPos, if_neg he,
      firstPos_of_not_mem idx rest (fun hc => h (by simp [hc]))]
    rfl

/-- On a duplicate-free list the occurrence positions are exactly the
first position, when there is one. -/
theorem posFrom_nodup (idx : Nat) :
    ∀ (l : List Nat) (t : Nat), l.Nodup →
      posFrom idx l t = (firstPos idx l).elim []
        (fun p => [p + t])
  | [], _, _ => rfl
  | e :: rest, t, h => by
    obtain ⟨hnm, hnd⟩ := List.nodup_cons.1 h
    by_cases he : e = idx
    · subst he
      rw [posFrom, if_pos rfl, firstPos, if_pos rfl,
        posFrom_of_not_mem e rest (t + 1) hnm]
      simp
    · rw [posFrom, if_neg he, firstPos, if_neg he,
        posFrom_nodup idx rest (t + 1) hnd]
      rcases firstPos idx rest with _ | p
      · rfl
      · simp only [Option.map_some', Option.elim]
        rw [List.cons.injEq]
        exact ⟨by omega, rfl⟩

/-- The label-order walk appends all occurrence positions of a relevant
item. -/
theorem labelWalk_apply_rel (labels : List Nat) (idx : Nat)
    (hrel : labels.getD idx 0 = 1) :
    ∀ (l : List Nat) (t : Nat) (tr : Nat → List Nat),
      labelWalk labels l t tr idx = tr idx ++ posFrom idx l t
  | [], _, _ => by simp [labelWalk, posFrom]
  | e :: rest, t, tr => by
    rw [labelWalk, labelWalk_apply_rel labels idx hrel rest (t + 1)]
    by_cases he : e = idx
    · subst he
      rw [if_pos hrel, posFrom, if_pos rfl]
      simp [updFn]
    · rw [posFrom, if_neg he]
      by_cases hrel2 : labels.getD e 0 = 1
      · rw [if_pos hrel2]
        simp only [updFn]
        rw [if_neg (show ¬idx = e from fun h => he h.symm)]
      · rw [if_neg hrel2]

/-- The label-order walk leaves irrelevant items untouched. -/
theorem labelWalk_apply_irrel (labels : List Nat) (idx : Nat)
    (hrel : labels.getD idx 0 ≠ 1) :
    ∀ (l : List Nat) (t : Nat) (tr : Nat → List Nat),
      labelWalk labels l t tr idx = tr idx
  | [], _, _ => rfl
  | e :: rest, t, tr => by
    rw [labelWalk, labelWalk_apply_irrel labels idx hrel rest (t + 1)]
    by_cases hrel2 : labels.getD e 0 = 1
    · rw [if_pos hrel2]
      have he : idx ≠ e := fun hc => hrel (hc ▸ hrel2)
      simp [updFn, he]
    · rw [if_neg hrel2]

/-- The ranking walk never touches an item that already has a time for
the current run. -/
theorem probaWalk_apply_full (labels : List Nat) (i_file L idx : Nat) :
    ∀ (l : List Nat) (t : Nat) (tr : Nat → List Nat),
      i_file < (tr idx).length →
      probaWalk labels i_file L l t tr idx = tr idx
  | [], _, _, _ => rfl
  | e :: rest, t, tr, hlen => by
    rw [probaWalk]
    by_cases hcond : labels.getD e 0 = 1 ∧ (tr e).length ≤ i_file
    · rw [if_pos hcond]
      have he : idx ≠ e := by
        intro hc
        subst hc
        omega
      have htr' : (updFn tr e (tr e ++ [t + L])) idx = tr idx := by
        simp [updFn, he]
      rw [probaWalk_apply_full labels i_file L idx rest (t + 1) _
        (by rw [htr']; exact hlen), htr']
    · rw [if_neg hcond]
      exact probaWalk_apply_full labels i_file L idx rest (t + 1) tr
        hlen

/-- The ranking walk appends `first position + offset` for a relevant
item that has no time for the current run yet. -/
theorem probaWalk_apply_rec (labels : List Nat) (i_file L idx : Nat)
    (hrel : labels.getD idx 0 = 1) :
    ∀ (l : List Nat) (t : Nat) (tr : Nat → List Nat),
      (tr idx).length = i_file →
      probaWalk labels i_file L l t tr idx =
        tr idx ++ (firstPos idx l).elim [] (fun j => [j + t + L])
  | [], _, _, _ => by simp [probaWalk, firstPos]
  | e :: rest, t, tr, hlen => by
    rw [probaWalk]
    by_cases he : e = idx
    · subst he
      rw [if_pos ⟨hrel, le_of_eq hlen⟩]
      have htr' : (updFn tr e (tr e ++ [t + L])) e = tr e ++ [t + L] := by
        simp [updFn]
      rw [probaWalk_apply_full labels i_file L e rest (t + 1) _
        (by rw [htr']; simp; omega)]
      rw [htr', firstPos, if_pos rfl]
      simp
    · have hstep : ∀ tr' : Nat → List Nat, tr' idx = tr idx →
          probaWalk labels i_file L rest (t + 1) tr' idx =
            tr idx ++ (firstPos idx rest).elim []
              (fun j => [j + (t + 1) + L]) := by
        intro tr' htr'
        rw [probaWalk_apply_rec labels i_file L idx hrel rest (t + 1)
          tr' (by rw [htr']; exact hlen), htr']
      have hfp : (firstPos idx (e :: rest)).elim []
          (fun j => [j + t + L]) =
          (firstPos idx rest).elim [] (fun j => [j + (t + 1) + L]) := by
        rw [firstPos, if_neg he]
        rcases firstPos idx rest with _ | p
        · rfl
        · simp only [Option.map_some', Option.elim]
          rw [List.cons.injEq]
          exact ⟨by omega, rfl⟩
      rw [hfp]
      by_cases hcond : labels.getD e 0 = 1 ∧ (tr e).length ≤ i_file
      · rw [if_pos hcond]
        apply hstep
        simp only [updFn]
        rw [if_neg (show ¬idx = e from fun h => he h.symm)]
      · rw [if_neg hcond]
        exact hstep tr rfl

/-- One run of the `avg_time_to_discovery` loop appends exactly the run's
discovery time for a relevant item that has one time per previous run. -/
theorem attdRun_spec (labels : List Nat) (idx i_file : Nat)
    (rc : RunCore) (tr : Nat → List Nat)
    (hrel : labels.getD idx 0 = 1) (hnd : rc.label_order.Nodup)
    (hlen : (tr idx).length = i_file) :
    attdRun labels i_file rc tr idx = tr idx ++ [discoveryTime rc idx] := by
  simp only [attdRun]
  have h1 := labelWalk_apply_rel labels idx hrel rc.label_order 0 tr
  rw [posFrom_nodup idx rc.label_order 0 hnd] at h1
  rcases hfp : firstPos idx rc.label_order with _ | p
  · rw [hfp] at h1
    simp only [Option.elim, List.append_nil] at h1
    have h2 := probaWalk_apply_rec labels i_file
      rc.label_order.length idx hrel rc.proba_order 0
      (labelWalk labels rc.label_order 0 tr) (by rw [h1]; exact hlen)
    rw [h1] at h2
    rcases hfp2 : firstPos idx rc.proba_order with _ | j
    · rw [hfp2] at h2
      simp only [Option.elim, List.append_nil] at h2
      simp only [sentinelFill]
      rw [if_pos ⟨hrel, by rw [h2]; exact le_of_eq hlen⟩, h2]
      simp only [discoveryTime, hfp, hfp2]
    · rw [hfp2] at h2
      simp only [Option.elim] at h2
      have hneg : ¬(labels.getD idx 0 = 1 ∧
          (probaWalk labels i_file rc.label_order.length
            rc.proba_order 0 (labelWalk labels rc.label_order 0 tr)
            idx).length ≤ i_file) := by
        rw [h2]
        intro hc
        have := hc.2
        simp at this
        omega
      simp only [sentinelFill]
      rw [if_neg hneg, h2]
      simp only [discoveryTime, hfp, hfp2,
        List.append_cancel_left_eq, List.cons.injEq]
      exact ⟨by omega, trivial⟩
  · rw [hfp] at h1
    simp only [Option.elim] at h1
    have hfull : i_file < (labelWalk labels rc.label_order 0 tr
        idx).length := by
      rw [h1]
      simp
      omega
    have h2 := probaWalk_apply_full labels i_file rc.label_order.length
      idx rc.proba_order 0 (labelWalk labels rc.label_order 0 tr) hfull
    have hneg : ¬(labels.getD idx 0 = 1 ∧
        (probaWalk labels i_file rc.label_order.length rc.proba_order 0
          (labelWalk labels rc.label_order 0 tr) idx).length ≤
          i_file) := by
      rw [h2, h1]
      intro hc
      have := hc.2
      simp at this
      omega
    simp only [sentinelFill]
    rw [if_neg hneg, h2, h1]
    simp only [discoveryTime, hfp]
    simp

/-- The full run loop produces one discovery time per run, in run
order. -/
theorem attdAllFrom_spec (labels : List Nat) (idx : Nat)
    (hrel : labels.getD idx 0 = 1) :
    ∀ (runs : List RunCore) (i : Nat) (tr : Nat → List Nat),
      (∀ rc ∈ runs, rc.label_order.Nodup) →
      (tr idx).length = i →
      attdAllFrom labels runs i tr idx =
        tr idx ++ runs.map (fun rc => discoveryTime rc idx)
  | [], _, _, _, _ => by simp [attdAllFrom]
  | rc :: rest, i, tr, hnd, hlen => by
    rw [attdAllFrom]
    have h1 := attdRun_spec labels idx i rc tr hrel
      (hnd rc (by simp)) hlen
    rw [attdAllFrom_spec labels idx hrel rest (i + 1) _
      (fun rc' h => hnd rc' (by simp [h]))
      (by rw [h1]; simp [hlen]), h1]
    simp

/-- Filtering enumerated values against a per-position threshold list is
filtering the zip of values with thresholds. -/
theorem enumFrom_filter_eq (ns : List Nat) :
    ∀ (l : List Nat) (k : Nat), l.length + k = ns.length →
      (((List.enumFrom k l).filter
        (fun p => ns.getD p.1 0 ≤ p.2)).map (fun p => p.2)) =
      (((l.zip (ns.drop k)).filter
        (fun p => p.2 ≤ p.1)).map (fun p => p.1))
  | [], k, h => by simp
  | a :: t, k, h => by
    have hk : k < ns.length := by
      simp only [List.length_cons] at h
      omega
    have hdrop : ns.drop k = ns.getD k 0 :: ns.drop (k + 1) := by
      rw [List.getD_eq_getElem _ _ hk]
      exact List.drop_eq_getElem_cons hk
    have ih := enumFrom_filter_eq ns t (k + 1) (by
      simp only [List.length_cons] at h
      omega)
    rw [List.enumFrom_cons, hdrop, List.zip_cons_cons]
    by_cases hc : ns.getD k 0 ≤ a
    · rw [List.filter_cons_of_pos (by simpa using hc),
        List.filter_cons_of_pos (by simpa using hc)]
      simp only [List.map_cons]
      rw [ih]
    · rw [List.filter_cons_of_neg (by simpa using hc),
        List.filter_cons_of_neg (by simpa using hc)]
      exact ih

/-- C5: for every relevant item, `avg_time_to_discovery` averages only
the per-run discovery times that are at least the `n_initial` of the run
they came from (the pairing is positional: one recorded time per run, in
run order, provided the label orders are duplicate-free), and it returns
0 for an item whose discovery time falls before the respective run's
`n_initial` in every run. -/
theorem c5_avg_time_to_discovery (r : Run) (rest : List Run)
    (lbls : List Nat) (idx : Nat)
    (hl : r.run_labels = some lbls)
    (hnd : ∀ rc ∈ (r :: rest).map Run.toRunCore, rc.label_order.Nodup)
    (hrel : lbls.getD idx 0 = 1) :
    avg_time_to_discovery (mkAnalysis (r :: rest)) idx =
      (if ((((r :: rest).map Run.toRunCore).map
            (fun rc => discoveryTime rc idx)).zip
          (((r :: rest).map Run.toRunCore).map
            (fun rc => rc.n_initial))).filter
          (fun p => p.2 ≤ p.1) = [] then 0
       else meanQ ((((((r :: rest).map Run.toRunCore).map
            (fun rc => discoveryTime rc idx)).zip
          (((r :: rest).map Run.toRunCore).map
            (fun rc => rc.n_initial))).filter
          (fun p => p.2 ≤ p.1)).map (fun p => (p.1 : ℚ)))) ∧
    ((∀ rc ∈ (r :: rest).map Run.toRunCore,
        discoveryTime rc idx < rc.n_initial) →
      avg_time_to_discovery (mkAnalysis (r :: rest)) idx = 0) := by
  have hmain : avg_time_to_discovery (mkAnalysis (r :: rest)) idx =
      (if ((((r :: rest).map Run.toRunCore).map
            (fun rc => discoveryTime rc idx)).zip
          (((r :: rest).map Run.toRunCore).map
            (fun rc => rc.n_initial))).filter
          (fun p => p.2 ≤ p.1) = [] then 0
       else meanQ ((((((r :: rest).map Run.toRunCore).map
            (fun rc => discoveryTime rc idx)).zip
          (((r :: rest).map Run.toRunCore).map
            (fun rc => rc.n_initial))).filter
          (fun p => p.2 ≤ p.1)).map (fun p => (p.1 : ℚ)))) := by
    simp only [avg_time_to_discovery, mkAnalysis, hl, Option.getD_some]
    have htr := attdAllFrom_spec lbls idx hrel
      ((r :: rest).map Run.toRunCore) 0 (fun _ => []) hnd rfl
    simp only [List.nil_append] at htr
    rw [htr]
    have hfil := enumFrom_filter_eq
      (((r :: rest).map Run.toRunCore).map (fun rc => rc.n_initial))
      (((r :: rest).map Run.toRunCore).map
        (fun rc => discoveryTime rc idx)) 0 (by simp)
    simp only [List.drop_zero] at hfil
    rw [show (((r :: rest).map Run.toRunCore).map
        (fun rc => discoveryTime rc idx)).enum =
      List.enumFrom 0 (((r :: rest).map Run.toRunCore).map
        (fun rc => discoveryTime rc idx)) from rfl]
    rw [hfil]
    have hemp : ((((r :: rest).map Run.toRunCore).map
        (fun rc => discoveryTime rc idx)).zip
        (((r :: rest).map Run.toRunCore).map
          (fun rc => rc.n_initial))).filter
        (fun p => p.2 ≤ p.1) = [] ↔
        (((((r :: rest).map Run.toRunCore).map
          (fun rc => discoveryTime rc idx)).zip
        (((r :: rest).map Run.toRunCore).map
          (fun rc => rc.n_initial))).filter
        (fun p => p.2 ≤ p.1)).map (fun p => p.1) = [] := by
      simp
    by_cases he : ((((r :: rest).map Run.toRunCore).map
        (fun rc => discoveryTime rc idx)).zip
        (((r :: rest).map Run.toRunCore).map
          (fun rc => rc.n_initial))).filter
        (fun p => p.2 ≤ p.1) = []
    · rw [if_pos (hemp.1 he), if_pos he]
    · rw [if_neg (fun hc => he (by
        rcases hx : ((((r :: rest).map Run.toRunCore).map
            (fun rc => discoveryTime rc idx)).zip
            (((r :: rest).map Run.toRunCore).map
              (fun rc => rc.n_initial))).filter
            (fun p => p.2 ≤ p.1) with _ | ⟨q, qs⟩
        · exact hx
        · rw [hx] at hc
          simp at hc)), if_neg he]
      rw [meanQ, meanQ]
      congr 1
      · rw [List.map_map]
        rfl
      · simp
  refine ⟨hmain, fun hall => ?_⟩
  rw [hmain, if_pos ?_]
  rw [List.zip_map', List.filter_map]
  rw [List.filter_eq_nil_iff.2 ?_]
  · simp
  · intro rc hrc
    simp only [Function.comp]
    have := hall rc hrc
    simp
    omega

/-- C5 (witness): in `attdRunW`, item 1 is discovered at step 0, during
the seed phase (`n_initial = 1`), so its average time is 0. -/
theorem c5_avg_time_to_discovery_witness :
    ([0, 1, 0, 1] : List Nat).getD 1 0 = 1 ∧
    avg_time_to_discovery (mkAnalysis (attdRunW :: [])) 1 = 0 :=
  ⟨by decide, (c5_avg_time_to_discovery attdRunW [] [0, 1, 0, 1] 1 rfl
    (by decide) (by decide)).2 (by decide)⟩

/-- Reading every position of a list back by `getD` over its index range
reproduces the list. -/
theorem range_getD_eq {α : Type _} :
    ∀ (l : List α) (d : α),
      (List.range l.length).map (fun i => l.getD i d) = l
  | [], _ => rfl
  | a :: t, d => by
    rw [List.length_cons, List.range_succ_eq_map]
    simp only [List.map_cons, List.getD_cons_zero, List.map_map]
    rw [show ((fun i => (a :: t).getD i d) ∘ Nat.succ) =
      (fun i => t.getD i d) from funext (fun i => by simp)]
    rw [range_getD_eq t d]

/-- Invariant of the `limits` query loop: it appends to `x_range` the
carried training size at every non-null step and appends the delegate's
`i`-th read count to the `i`-th limits list at the same steps. -/
theorem limitsLoop_spec (r0 : RunCore) (gl : Nat → Option (List ℤ))
    (nProbs : Nat) :
    ∀ (qs : List Nat) (nt : Nat) (xr : List Nat)
      (lims : List (List ℤ)), lims.length = nProbs →
      limitsLoop r0 gl nProbs qs nt (xr, lims) =
        (xr ++ xRangeCarry r0 gl qs nt,
          (List.range nProbs).map (fun i => lims.getD i [] ++
            (nonNullSteps gl qs).map
              (fun q => ((gl q).getD []).getD i 0)))
  | [], nt, xr, lims, hlen => by
    simp only [limitsLoop, xRangeCarry, nonNullSteps, List.filter_nil,
      List.map_nil, List.append_nil]
    rw [← hlen, range_getD_eq lims []]
  | q :: rest, nt, xr, lims, hlen => by
    rcases hgl : gl q with _ | nl
    · have ih := limitsLoop_spec r0 gl nProbs rest
        (match r0.train_idx q with
          | some t => t.length
          | none => nt) xr lims hlen
      simp only [limitsLoop, xRangeCarry, hgl, nonNullSteps,
        List.filter_cons, Option.isSome_none, Bool.false_eq_true,
        if_false] at ih ⊢
      exact ih
    · have ih := limitsLoop_spec r0 gl nProbs rest
        (match r0.train_idx q with
          | some t => t.length
          | none => nt)
        (xr ++ [match r0.train_idx q with
          | some t => t.length
          | none => nt])
        ((List.range nProbs).map
          (fun i => lims.getD i [] ++ [nl.getD i 0]))
        (by simp)
      simp only [limitsLoop, xRangeCarry, hgl, nonNullSteps,
        List.filter_cons, Option.isSome_some, if_true] at ih ⊢
      rw [ih]
      refine congrArg₂ Prod.mk (by simp) ?_
      apply List.map_congr_left
      intro i hi
      have hi' : i < nProbs := List.mem_range.1 hi
      rw [List.getD_eq_getElem _ _ (by simpa using hi'),
        List.getElem_map, List.getElem_range, List.map_cons, hgl]
      simp [List.append_assoc]

/-- The carried training size along consecutive query indices is the
most recent snapshot size. -/
theorem xRangeCarry_range' (r0 : RunCore) (gl : Nat → Option (List ℤ)) :
    ∀ (k q0 nt : Nat),
      nt = (if q0 = 0 then 0 else lastTrainSize r0 (q0 - 1)) →
      xRangeCarry r0 gl (List.range' q0 k) nt =
        (nonNullSteps gl (List.range' q0 k)).map (lastTrainSize r0)
  | 0, q0, nt, hnt => rfl
  | k + 1, q0, nt, hnt => by
    rw [List.range'_succ]
    have hnt' : (match r0.train_idx q0 with
        | some t => t.length
        | none => nt) = lastTrainSize r0 q0 := by
      rcases q0 with _ | m
      · rw [lastTrainSize]
        rcases r0.train_idx 0 with _ | t
        · simpa using hnt
        · rfl
      · rw [lastTrainSize]
        rcases r0.train_idx (m + 1) with _ | t
        · simpa using hnt
        · rfl
    have ih := xRangeCarry_range' r0 gl k (q0 + 1)
      (lastTrainSize r0 q0) (by simp)
    rcases hgl : gl q0 with _ | nl
    · simp only [xRangeCarry, hgl, nonNullSteps, List.filter_cons,
        Option.isSome_none, Bool.false_eq_true, if_false]
      rw [show (match r0.train_idx q0 with
        | some t => t.length
        | none => nt) = lastTrainSize r0 q0 from hnt', ih]
      rfl
    · simp only [xRangeCarry, hgl, nonNullSteps, List.filter_cons,
        Option.isSome_some, if_true]
      rw [show (match r0.train_idx q0 with
        | some t => t.length
        | none => nt) = lastTrainSize r0 q0 from hnt', ih]
      rfl

/-- C6: `limits` appends to `x_range` and to each per-probability limits
sequence exactly at the query steps where the delegate reports a non-null
result (null steps are skipped, not zero-filled); the `x_range` entry at
such a step is the size of the train-index snapshot of the most recent
query that reported one (starting at 0 while none has); consequently
`x_range` and every limits sequence have the same length. -/
theorem c6_limits (r : Run) (rest : List Run)
    (gl : List RunCore → Nat → Option (List Nat) → List ℚ →
      Option (List ℤ))
    (probs : List ℚ) (xr : List Nat) (ls : List (List ℤ))
    (hres : limits (mkAnalysis (r :: rest)) gl probs = .ok (xr, ls)) :
    xr = (nonNullSteps (fun q => gl ((r :: rest).map Run.toRunCore) q
        r.run_labels probs)
        (List.range r.toRunCore.n_queries)).map
        (lastTrainSize r.toRunCore) ∧
    ls = (List.range probs.length).map (fun i =>
      (nonNullSteps (fun q => gl ((r :: rest).map Run.toRunCore) q
          r.run_labels probs)
        (List.range r.toRunCore.n_queries)).map
        (fun q => ((gl ((r :: rest).map Run.toRunCore) q
          r.run_labels probs).getD []).getD i 0)) ∧
    xr.length = (nonNullSteps (fun q =>
      gl ((r :: rest).map Run.toRunCore) q r.run_labels probs)
      (List.range r.toRunCore.n_queries)).length ∧
    ∀ li ∈ ls, li.length = (nonNullSteps (fun q =>
      gl ((r :: rest).map Run.toRunCore) q r.run_labels probs)
      (List.range r.toRunCore.n_queries)).length := by
  have hloop := limitsLoop_spec r.toRunCore
    (fun q => gl ((r :: rest).map Run.toRunCore) q r.run_labels probs)
    probs.length (List.range r.toRunCore.n_queries) 0 []
    (List.replicate probs.length []) (by simp)
  have hrep : ∀ i,
      (List.replicate probs.length ([] : List ℤ)).getD i [] = [] := by
    intro i
    by_cases hi : i < probs.length
    · rw [List.getD_eq_getElem _ _ (by simpa using hi)]
      simp
    · rw [List.getD_eq_default _ _ (by simpa using hi)]
  have hcarry : xRangeCarry r.toRunCore
      (fun q => gl ((r :: rest).map Run.toRunCore) q r.run_labels probs)
      (List.range r.toRunCore.n_queries) 0 =
      (nonNullSteps (fun q => gl ((r :: rest).map Run.toRunCore) q
        r.run_labels probs)
        (List.range r.toRunCore.n_queries)).map
        (lastTrainSize r.toRunCore) := by
    rw [List.range_eq_range']
    exact xRangeCarry_range' r.toRunCore _
      r.toRunCore.n_queries 0 0 (by simp)
  simp only [hrep, hcarry, List.nil_append] at hloop
  simp only [List.map_cons] at hloop
  simp only [limits, mkAnalysis, List.map_cons] at hres
  rw [hloop] at hres
  simp only [Except.ok.injEq, Prod.mk.injEq] at hres
  obtain ⟨hxr, hls⟩ := hres
  subst hxr hls
  refine ⟨rfl, rfl, by simp, ?_⟩
  intro li hli
  obtain ⟨i, _, rfl⟩ := List.mem_map.1 hli
  simp

/-- C6 (witness): with three queries, a snapshot only at query 1 and a
delegate null only at query 0, `x_range = [3, 3]` and the per-probability
sequences `[[1, 2], [10, 20]]` all have length 2. -/
theorem c6_limits_witness :
    limits (mkAnalysis (limitsRunW :: [])) limitsDelegateW
        [1 / 10, 2] = .ok ([3, 3], [[1, 2], [10, 20]]) ∧
    ([3, 3] : List Nat) = (nonNullSteps (fun q =>
      limitsDelegateW ((limitsRunW :: []).map Run.toRunCore) q
        limitsRunW.run_labels [1 / 10, 2])
      (List.range limitsRunW.toRunCore.n_queries)).map
      (lastTrainSize limitsRunW.toRunCore) :=
  ⟨rfl, (c6_limits limitsRunW [] limitsDelegateW [1 / 10, 2]
    [3, 3] [[1, 2], [10, 20]] rfl).1⟩

/-- C1 (witness). -/
theorem c1_number_normalization_witness :
    scenarioRun.run_labels = some [0, 1, 0, 1, 1, 0, 0, 1] ∧
    (inclusions_found scenarioAnalysis "number" false).toOption.map
        (fun p => (p.1.1, p.1.2.1)) =
      some ([0, 4 / 3, 8 / 3, 4, 16 / 3, 20 / 3, 8, 28 / 3],
        [0, 0, 1, 2, 3, 3, 3, 4]) :=
  ⟨rfl, (c1_number_normalization scenarioRun [] [0, 1, 0, 1, 1, 0, 0, 1]
    rfl (by decide)).2⟩
